import Mathlib

/-!
Verification of the snncpp build-tool dependency-discovery engine.

This file is a shallow embedding, in Lean 4, of the parts of the
build-tool relevant to its specification: the string validators
(validator.hh), the conditional-compilation directive evaluator
(preprocessor.hh), and the include scanner of the generator (snn.cc):
library-annotation extraction, include-root detection, the recursive
dependency parser and the closure queries.

Strings are modelled as lists of characters.  The snn-core range
primitives used by the code (drop_front, pop_front_while,
pop_back_while, has_front, has_back, split, find) are modelled by the
corresponding list operations.  The filesystem and the home directory
are parameters of the embedding (the code only queries them through
file::is_regular, file::read and file::dir::home).
-/

namespace BuildTool

/-- Characters of a C++ string view. -/
abbrev Str := List Char

/-- Shorthand to turn a Lean string literal into the character list model. -/
def lit (s : String) : Str := s.toList

/-- Models snn drop_front of a fixed sequence: on a match returns the rest. -/
def stripPfx : Str → Str → Option Str
  | [], s => some s
  | _ :: _, [] => none
  | a :: p, b :: s => if a = b then stripPfx p s else none

/-- Models cstrview has_front for a sequence. -/
def hasFront (p s : Str) : Bool := (stripPfx p s).isSome

/-- Models cstrview has_front for a single character. -/
def hasFrontChar (c : Char) (s : Str) : Bool := (stripPfx [c] s).isSome

/-- chr is_alpha_lower (preprocessor token characters). -/
def chr_is_alpha_lower (c : Char) : Bool := decide ('a' ≤ c) && decide (c ≤ 'z')

/-- chr is_alpha. -/
def chr_is_alpha (c : Char) : Bool :=
  (decide ('a' ≤ c) && decide (c ≤ 'z')) || (decide ('A' ≤ c) && decide (c ≤ 'Z'))

/-- chr is_digit. -/
def chr_is_digit (c : Char) : Bool := decide ('0' ≤ c) && decide (c ≤ '9')

/-- chr is_alphanumeric. -/
def chr_is_alphanumeric (c : Char) : Bool := chr_is_alpha c || chr_is_digit c

/-- preprocessor is_space_: space or horizontal tab. -/
def pp_is_space (c : Char) : Bool := decide (c = ' ') || decide (c = '\t')

/-- Interior characters allowed by validator is_base. -/
def base_char (c : Char) : Bool :=
  chr_is_alphanumeric c || decide (c = '.') || decide (c = '_') || decide (c = '-')

/-- Interior characters allowed by validator is_macro. -/
def macro_char (c : Char) : Bool := chr_is_alphanumeric c || decide (c = '_')

/-- Interior characters allowed by validator is_library. -/
def library_char (c : Char) : Bool :=
  chr_is_alphanumeric c || decide (c = '_') || decide (c = '-') || decide (c = '.')

/-- validator is_base (validator.hh lines 34-46): optional leading dot,
then an alpha first character, an alphanumeric last character, and all
characters drawn from the base alphabet. -/
def is_base (s : Str) : Bool :=
  let r := (stripPfx (lit ".") s).getD s
  ((match r.head? with | some c => chr_is_alpha c | none => false) &&
   (match r.getLast? with | some c => chr_is_alphanumeric c | none => false)) &&
  (r.dropWhile base_char).isEmpty

/-- The component loop of validator is_directory (validator.hh lines 59-70):
repeatedly pop a slash-free component, require is_base on it, then require
and consume a slash.  The extra Nat is pure recursion fuel: every step
strictly shortens the string, so with fuel at least the string length the
zero-fuel branch is unreachable. -/
def dirComponentsF : Nat → Str → Bool
  | _, [] => true
  | 0, _ :: _ => false
  | fuel + 1, c :: cs =>
    if is_base ((c :: cs).takeWhile (fun x => !decide (x = '/'))) then
      match (c :: cs).dropWhile (fun x => !decide (x = '/')) with
      | d :: rest => if d = '/' then dirComponentsF fuel rest else false
      | [] => false
    else false

/-- The front dot-dot-slash stripper of is_directory (the while loop at
validator.hh lines 55-57).  Fueled like dirComponentsF: each iteration
removes three characters, so fuel equal to the string length suffices. -/
def dropDotDotsF : Nat → Str → Str
  | 0, s => s
  | fuel + 1, s =>
    match stripPfx (lit "../") s with
    | some r => dropDotDotsF fuel r
    | none => s

/-- validator is_directory (validator.hh lines 48-73): skip one optional
leading slash, one optional dot-slash, any number of dot-dot-slashes, then
run the component loop. -/
def is_directory (s : Str) : Bool :=
  let r := (stripPfx (lit "/") s).getD s
  let r := (stripPfx (lit "./") r).getD r
  let r := dropDotDotsF r.length r
  dirComponentsF r.length r

/-- validator is_file_path (validator.hh lines 75-83): the trailing
slash-free run must be is_base, the rest must be is_directory. -/
def is_file_path (s : Str) : Bool :=
  let base := (s.reverse.takeWhile (fun c => !decide (c = '/'))).reverse
  let dir := (s.reverse.dropWhile (fun c => !decide (c = '/'))).reverse
  if is_base base then is_directory dir else false

/-- validator is_library (validator.hh lines 85-98). -/
def is_library (s : Str) : Bool :=
  if s.length ≤ 40 then
    ((match s.head? with | some c => chr_is_alpha c | none => false) &&
     (match s.getLast? with | some c => chr_is_alphanumeric c | none => false)) &&
    (s.dropWhile library_char).isEmpty
  else false

/-- validator is_macro (validator.hh lines 100-110). -/
def is_macro_name (s : Str) : Bool :=
  if (match s.head? with | some c => chr_is_alpha c | none => false) || hasFrontChar '_' s then
    (s.dropWhile macro_char).isEmpty
  else false

/-- validator is_reserved_target (validator.hh lines 112-169). -/
def is_reserved_target (dir base : Str) : Bool :=
  if decide (dir = []) || decide (dir = lit "./") then
    decide (base = lit "all") || decide (base = lit "run") || decide (base = lit "clean") ||
    decide (base = lit "clean-executables") || decide (base = lit "clean-object-files") ||
    decide (base = lit "destruct") || decide (base = lit "minimize-corpus") ||
    decide (base = lit "compress-corpus")
  else false

/-! ## The directive evaluator (preprocessor.hh) -/

/-- preprocessor status. -/
inductive Status : Type
  | compile
  | skip
  | not_understood
deriving DecidableEq

/-- The environment a preprocessor instance is constructed with, plus the
filesystem predicate behind file::is_regular. -/
structure PPEnv : Type where
  predefined_macros : List (Str × Str)
  include_paths : List Str
  is_regular : Str → Bool

/-- The mutable state of a preprocessor instance: the saved-pair stack
(vec back modelled as list head), the current state and the
if-statement-handled flag. -/
structure PPState : Type where
  stack : List (Status × Bool)
  state : Status
  handled : Bool
deriving DecidableEq

/-- A freshly constructed preprocessor: empty stack, state compile,
if_statement_handled_ false. -/
def initPP : PPState := ⟨[], Status.compile, false⟩

/-- preprocessor is_defined_: the sorted map contains the key. -/
def is_defined (env : PPEnv) (m : Str) : Bool :=
  env.predefined_macros.any (fun kv => decide (kv.1 = m))

/-- preprocessor has_include_: some include path prepended to the include
names a regular file. -/
def has_include (env : PPEnv) (inc : Str) : Bool :=
  env.include_paths.any (fun p => env.is_regular (p ++ inc))

/-- preprocessor parse_expression_ (preprocessor.hh lines 146-192). -/
def parse_expression (env : PPEnv) (r : Str) : Status :=
  let negation := hasFrontChar '!' r
  let rng := (stripPfx (lit "!") r).getD r
  match stripPfx (lit "defined(") rng with
  | some r2 =>
    let mname := r2.takeWhile (fun c => !decide (c = ')'))
    let rest := r2.dropWhile (fun c => !decide (c = ')'))
    if is_macro_name mname then
      match stripPfx (lit ")") rest with
      | some r3 =>
        if r3.isEmpty then
          if is_defined env mname then (if negation then .skip else .compile)
          else (if negation then .compile else .skip)
        else .not_understood
      | none => .not_understood
    else .not_understood
  | none =>
    match stripPfx (lit "__has_include(<") rng with
    | some r2 =>
      let inc := r2.takeWhile (fun c => !decide (c = '>'))
      let rest := r2.dropWhile (fun c => !decide (c = '>'))
      if is_file_path inc then
        match stripPfx (lit ">)") rest with
        | some r3 =>
          if r3.isEmpty then
            if has_include env inc then (if negation then .skip else .compile)
            else (if negation then .compile else .skip)
          else .not_understood
        | none => .not_understood
      else .not_understood
    | none => .not_understood

/-- The directive token of a trimmed line: only meaningful when the line
starts with a hash; skip horizontal space, then take the run of lowercase
alphabetic characters. -/
def directiveToken? (line : Str) : Option Str :=
  match stripPfx (lit "#") line with
  | none => none
  | some r => some ((r.dropWhile pp_is_space).takeWhile chr_is_alpha_lower)

/-- preprocessor process (preprocessor.hh lines 46-110): returns the
verdict for the line and the updated evaluator state. -/
def process (env : PPEnv) (st : PPState) (line : Str) : Status × PPState :=
  match stripPfx (lit "#") line with
  | none => (st.state, st)
  | some r0 =>
    let r1 := r0.dropWhile pp_is_space
    let token := r1.takeWhile chr_is_alpha_lower
    let rng := (r1.dropWhile chr_is_alpha_lower).dropWhile pp_is_space
    if token = lit "if" then
      let stack1 := (st.state, st.handled) :: st.stack
      if st.state = .compile then
        let s1 := parse_expression env rng
        (s1, ⟨stack1, s1, if s1 = .skip then false else true⟩)
      else
        (st.state, ⟨stack1, st.state, true⟩)
    else if token = lit "elif" then
      if st.handled = false then
        let s1 := parse_expression env rng
        (s1, ⟨st.stack, s1, if s1 ≠ .skip then true else st.handled⟩)
      else if st.state = .compile then
        (.skip, ⟨st.stack, .skip, st.handled⟩)
      else
        (st.state, st)
    else if token = lit "else" then
      if st.handled = false then
        (.compile, ⟨st.stack, .compile, true⟩)
      else if st.state = .compile then
        (.skip, ⟨st.stack, .skip, st.handled⟩)
      else
        (st.state, st)
    else if token = lit "endif" then
      match st.stack with
      | [] => (st.state, st)
      | p :: rest => (p.1, ⟨rest, p.1, p.2⟩)
    else
      (st.state, st)

/-- Feed a list of already-trimmed lines through one evaluator instance,
collecting the verdicts. -/
def run_lines (env : PPEnv) : List Str → PPState → List Status × PPState
  | [], st => ([], st)
  | l :: ls, st =>
    let r := process env st l
    let rest := run_lines env ls r.2
    (r.1 :: rest.1, rest.2)

/-- The final evaluator state after a list of lines. -/
def process_list (env : PPEnv) (ls : List Str) (st : PPState) : PPState :=
  ls.foldl (fun s l => (process env s l).2) st

/-- The scenario S1 environment: one predefined macro, one include path,
and a filesystem where exactly /usr/include/stdio.h is a regular file. -/
def s1_env : PPEnv :=
  { predefined_macros := [(lit "__FreeBSD__", lit "1")]
    include_paths := [lit "/usr/include/"]
    is_regular := fun s => decide (s = lit "/usr/include/stdio.h") }

/-- The twelve trimmed lines of scenario S1. -/
def s1_lines : List Str :=
  [ lit "#if defined(__FreeBSD__)"
  , lit "#if __has_include(<stdio.h>)"
  , lit "#include \"snn/example/impl/fbsd_stdio.hh\""
  , lit "#else"
  , lit "#include \"snn/example/impl/fbsd.hh\""
  , lit "#endif"
  , lit "#elif defined(__linux__)"
  , lit "#include \"snn/example/impl/linux.hh\""
  , lit "#else"
  , lit "#include \"snn/example/impl/portable.hh\""
  , lit "#endif"
  , lit "" ]

/-! ## Specification-side form of the expression grammar (for C2) -/

/-- The shapes the expression grammar of the spec accepts. -/
inductive ExprForm : Type
  | definedM (name : Str)
  | hasIncl (path : Str)
deriving DecidableEq

/-- Written from the words of the spec: an optional leading bang, then
exactly one of defined(NAME) with NAME a valid macro name, or
__has_include(<PATH>) with PATH a valid file path, consumed entirely. -/
def expr_form (r : Str) : Option (Bool × ExprForm) :=
  let negation := hasFrontChar '!' r
  let rng := (stripPfx (lit "!") r).getD r
  match stripPfx (lit "defined(") rng with
  | some r2 =>
    let mname := r2.takeWhile (fun c => !decide (c = ')'))
    let rest := r2.dropWhile (fun c => !decide (c = ')'))
    if is_macro_name mname && decide (rest = lit ")") then some (negation, .definedM mname)
    else none
  | none =>
    match stripPfx (lit "__has_include(<") rng with
    | some r2 =>
      let inc := r2.takeWhile (fun c => !decide (c = '>'))
      let rest := r2.dropWhile (fun c => !decide (c = '>'))
      if is_file_path inc && decide (rest = lit ">)") then some (negation, .hasIncl inc)
      else none
    | none => none

/-- How the spec resolves a recognised form: defined consults the macro
environment, has_include consults the include paths, the bang swaps
compile and skip, anything unrecognised is not understood. -/
def eval_form (env : PPEnv) : Option (Bool × ExprForm) → Status
  | none => .not_understood
  | some (neg, .definedM n) =>
    if is_defined env n then (if neg then .skip else .compile)
    else (if neg then .compile else .skip)
  | some (neg, .hasIncl p) =>
    if has_include env p then (if neg then .skip else .compile)
    else (if neg then .compile else .skip)

/-- An environment in which nothing is defined and no file exists. -/
def empty_env : PPEnv :=
  { predefined_macros := [], include_paths := [], is_regular := fun _ => false }

/-! ## Balanced conditional blocks (for C3) -/

/-- The line is a hash-if directive line. -/
def isIfLine (l : Str) : Bool := decide (directiveToken? l = some (lit "if"))

/-- The line is a hash-endif directive line. -/
def isEndifLine (l : Str) : Bool := decide (directiveToken? l = some (lit "endif"))

/-- A line sequence in which every hash-if is closed by a matching
hash-endif and vice versa; lines that are neither are unconstrained. -/
inductive BalancedSeq : List Str → Prop
  | nil : BalancedSeq []
  | other (l : Str) (ls : List Str) :
      isIfLine l = false → isEndifLine l = false → BalancedSeq ls → BalancedSeq (l :: ls)
  | block (l : Str) (body : List Str) (l2 : Str) (rest : List Str) :
      isIfLine l = true → BalancedSeq body → isEndifLine l2 = true → BalancedSeq rest →
      BalancedSeq (l :: (body ++ l2 :: rest))

/-! ## Spec-side directory grammar (for C4) -/

/-- The front-skipping part of is_directory: one optional slash, one
optional dot-slash, then any number of dot-dot-slashes. -/
def stripDirFront (s : Str) : Str :=
  let r := (stripPfx (lit "/") s).getD s
  let r := (stripPfx (lit "./") r).getD r
  dropDotDotsF r.length r

/-- Concatenation of components, each followed by one slash. -/
def joinComps : List Str → Str
  | [] => []
  | b :: bs => b ++ '/' :: joinComps bs

/-! ## Include-root detection (for C5) -/

/-- n copies of dot-dot-slash. -/
def dotdots : Nat → Str
  | 0 => []
  | n + 1 => lit "../" ++ dotdots n

/-- Models file::path::is_absolute: the path starts with a slash. -/
def is_absolute (s : Str) : Bool := hasFrontChar '/' s

/-- Models snn-core file::path::join: a separating slash is inserted
unless the left part is empty or already ends in one. -/
def path_join (a b : Str) : Str :=
  if a.isEmpty then b
  else if a.getLast? = some '/' then a ++ b else a ++ '/' :: b

/-- The state the generator reads from outside: the preprocessor
environment (compiler macros, include paths, the filesystem regular-file
predicate), the home directory string (empty when unavailable) and the
file reader (none when unreadable). -/
structure GenCtx : Type where
  pp : PPEnv
  home : Str
  read_file : Str → Option Str

/-- The do-while loop of generator detect_include_path_ (snn.cc lines
708-722): body runs for levels one through nine, each time testing
path plus file and then appending one more dot-dot-slash. -/
def try_parents (ctx : GenCtx) (file : Str) : Str → Nat → Option Str
  | _, 0 => none
  | path, n + 1 =>
    if ctx.pp.is_regular (path ++ file) then some path
    else try_parents ctx file (path ++ lit "../") n

/-- generator detect_include_path_ (snn.cc lines 687-741).  The result
pair is the returned success flag and the final value of the
include_path_ member (whose prior value ip0 is kept on the absolute-path
early return). -/
def detect_include_path (ctx : GenCtx) (file : Str) (ip0 : Str) : Bool × Str :=
  if is_absolute file then (false, ip0)
  else if ctx.pp.is_regular (lit "./" ++ file) then (true, lit "./")
  else
    match try_parents ctx file (lit "../") 9 with
    | some p => (true, p)
    | none =>
      let ip := ctx.home
      if ip.isEmpty then (false, ip)
      else
        let ip2 := path_join ip (lit "project/cpp/")
        if is_file_path (ip2 ++ file) then (ctx.pp.is_regular (ip2 ++ file), ip2)
        else (false, ip2)

/-- The candidate roots the probe walks, in order: the current directory
then one through nine levels of parent directory. -/
def include_roots : List Str := lit "./" :: (List.range 9).map (fun k => dotdots (k + 1))

/-- Spec-side statement of the probe: reject absolute paths, take the
first candidate root under which the file is regular, otherwise fall back
to home joined with project/cpp/ when that combination is a valid file
path naming a regular file. -/
def detect_spec (ctx : GenCtx) (file : Str) : Option Str :=
  if is_absolute file then none
  else
    match include_roots.find? (fun r => ctx.pp.is_regular (r ++ file)) with
    | some r => some r
    | none =>
      if ctx.home.isEmpty then none
      else
        let ip2 := path_join ctx.home (lit "project/cpp/")
        if is_file_path (ip2 ++ file) && ctx.pp.is_regular (ip2 ++ file) then some ip2
        else none

/-- Counterexample filesystem: the only regular file sits ten levels of
parent directories up. -/
def c5_ctx : GenCtx :=
  { pp := { predefined_macros := [], include_paths := []
            is_regular := fun s => decide (s = dotdots 10 ++ lit "a.hh") }
    home := [], read_file := fun _ => none }

/-- Witness filesystem: the file is regular in the current directory. -/
def c5w_ctx : GenCtx :=
  { pp := { predefined_macros := [], include_paths := []
            is_regular := fun s => decide (s = lit "./a.hh") }
    home := [], read_file := fun _ => none }

/-! ## Library-annotation extraction (for C7) -/

/-- Split on a separator character, keeping empty fields (models
snn string::range::split). -/
def splitOnChar (sep : Char) : Str → List Str
  | [] => [[]]
  | c :: rest =>
    match splitOnChar sep rest with
    | [] => if c = sep then [[], []] else [[c]]
    | h :: t => if c = sep then [] :: h :: t else (c :: h) :: t

/-- has_back for a single character. -/
def hasBackChar (c : Char) (s : Str) : Bool := decide (s.getLast? = some c)

/-- set unsorted insert: append when absent, report whether inserted. -/
def setInsert (s : List Str) (x : Str) : Bool × List Str :=
  if x ∈ s then (false, s) else (true, s ++ [x])

/-- The token loop of generator parse_libraries_ (snn.cc lines 840-857). -/
def parse_libs_words : List Str → List Str → Bool × List Str
  | [], libs => (true, libs)
  | w :: ws, libs =>
    if hasFront (lit "[#lib:") w && hasBackChar ']' w then
      let name := (w.drop 6).dropLast
      if is_library name then parse_libs_words ws (setInsert libs name).2
      else (false, libs)
    else parse_libs_words ws libs

/-- generator parse_libraries_ (snn.cc lines 834-860): find the first
opening bracket, split the remainder on single spaces, and process every
bracketed lib token. -/
def parse_libraries (line : Str) (libs : List Str) : Bool × List Str :=
  match line.findIdx? (fun c => decide (c = '[')) with
  | none => (true, libs)
  | some pos => parse_libs_words (splitOnChar ' ' (line.drop pos)) libs

/-- Spec-side: the names enclosed in the lib tokens of the line, in
order: the tokens after the first bracket that start with the lib marker
and end with a closing bracket, stripped of both. -/
def lib_names (line : Str) : List Str :=
  match line.findIdx? (fun c => decide (c = '[')) with
  | none => []
  | some pos =>
    ((splitOnChar ' ' (line.drop pos)).filter
      (fun w => hasFront (lit "[#lib:") w && hasBackChar ']' w)).map
      (fun w => (w.drop 6).dropLast)

/-! ## The recursive dependency parser (for C6) -/

/-- One dependencies record (snn.cc struct dependencies). -/
structure DepRec : Type where
  libraries : List Str
  source_files : List Str
  header_files : List Str
deriving DecidableEq, Inhabited

/-- A fresh record. -/
def emptyRec : DepRec := ⟨[], [], []⟩

/-- The dependency map, keyed by file path, in insertion order. -/
abbrev DepMap := List (Str × DepRec)

/-- Key membership. -/
def mapContains (m : DepMap) (k : Str) : Bool := m.any (fun e => decide (e.1 = k))

/-- Lookup. -/
def mapFind (m : DepMap) (k : Str) : Option DepRec :=
  (m.find? (fun e => decide (e.1 = k))).map (fun e => e.2)

/-- Replace the record stored under a key. -/
def mapUpdate (m : DepMap) (k : Str) (r : DepRec) : DepMap :=
  m.map (fun e => if e.1 = k then (e.1, r) else e)

/-- The scanner state the parser mutates: the dependency map and the
one-shot include root (empty when not yet detected). -/
structure ScanState : Type where
  deps : DepMap
  include_path : Str
deriving DecidableEq

/-- The record currently stored for a key (the reference deps in the
code; the key is always present when this is used). -/
def getRec (st : ScanState) (k : Str) : DepRec := (mapFind st.deps k).getD emptyRec

/-- Write a record back through the reference. -/
def setRec (st : ScanState) (k : Str) (r : DepRec) : ScanState :=
  { st with deps := mapUpdate st.deps k r }

/-- ASCII whitespace trimmed by ascii trim_inplace. -/
def ws_char (c : Char) : Bool :=
  decide (c = ' ') || decide (c = '\t') || decide (c = '\n') ||
  decide (c = '\x0b') || decide (c = '\x0c') || decide (c = '\r')

/-- Trim ASCII whitespace from both ends. -/
def trim (s : Str) : Str := ((s.dropWhile ws_char).reverse.dropWhile ws_char).reverse

/-- First index at which the pattern occurs as a contiguous run. -/
def findSub? (pat : Str) : Str → Option Nat
  | [] => if pat.isEmpty then some 0 else none
  | c :: rest =>
    if hasFront pat (c :: rest) then some 0
    else (findSub? pat rest).map (fun i => i + 1)

/-- The twin-source step of the quoted-include case (snn.cc lines
961-973): derive the cc twin of the followed header, and when it is a
new regular source, record it and recurse into it. -/
def follow_twin (ctx : GenCtx) (recurse : Str → ScanState → Bool × ScanState)
    (file file_next : Str) (st4 : ScanState) : Bool × ScanState :=
  let file_cc := file_next.dropLast.dropLast ++ lit "cc"
  let r3 := getRec st4 file
  if !decide (file_cc ∈ r3.source_files) && ctx.pp.is_regular file_cc then
    let st5 := setRec st4 file { r3 with source_files := r3.source_files ++ [file_cc] }
    recurse file_cc st5
  else (true, st4)

/-- Recurse into a freshly recorded header, then try its twin source
(snn.cc lines 954-973). -/
def follow_header (ctx : GenCtx) (recurse : Str → ScanState → Bool × ScanState)
    (file file_next : Str) (st3 : ScanState) : Bool × ScanState :=
  match recurse file_next st3 with
  | (false, st4) => (false, st4)
  | (true, st4) => follow_twin ctx recurse file file_next st4

/-- The include-root and header-recording step of the quoted-include
case (snn.cc lines 939-974): detect the include root when unset, form
the resolved header path, insert it into the header set of the current
record, and follow it when freshly inserted. -/
def resolve_include (ctx : GenCtx) (recurse : Str → ScanState → Bool × ScanState)
    (file path : Str) (st1 : ScanState) : Bool × ScanState :=
  let probe :=
    if st1.include_path.isEmpty then detect_include_path ctx path st1.include_path
    else (true, st1.include_path)
  let st2 := { st1 with include_path := probe.2 }
  if probe.1 = false then (false, st2)
  else
    let file_next := st2.include_path ++ path
    let r2 := getRec st2 file
    let ins := setInsert r2.header_files file_next
    let st3 := setRec st2 file { r2 with header_files := ins.2 }
    if ins.1 then follow_header ctx recurse file file_next st3
    else (true, st3)

/-- The body of the quoted-include case of parse_recursive_ (snn.cc
lines 918-977).  The recurse parameter is the nested
parse_recursive_ call at depth plus one; the Bool result is false on a
fatal error and true when the line loop should continue. -/
def handle_quoted (ctx : GenCtx) (recurse : Str → ScanState → Bool × ScanState)
    (file line : Str) (st : ScanState) : Bool × ScanState :=
  let r := getRec st file
  let pl := parse_libraries line r.libraries
  let st1 := setRec st file { r with libraries := pl.2 }
  if pl.1 = false then (false, st1)
  else
    let line2 := line.drop 10
    match findSub? (lit ".hh\"") line2 with
    | none => (true, st1)
    | some pos =>
      let path := line2.take (pos + 3)
      if is_file_path path = false then (false, st1)
      else resolve_include ctx recurse file path st1

/-- The line loop of parse_recursive_ (snn.cc lines 891-995): trim,
evaluate through the preprocessor, then dispatch on the line shape. -/
def scan_lines (ctx : GenCtx) (recurse : Str → ScanState → Bool × ScanState) (file : Str) :
    List Str → PPState → ScanState → Bool × ScanState
  | [], _, st => (true, st)
  | l :: ls, pp, st =>
    let line := trim l
    let pr := process ctx.pp pp line
    if pr.1 ≠ Status.compile then
      if line.isEmpty || hasFrontChar '#' line || hasFront (lit "//") line then
        scan_lines ctx recurse file ls pr.2 st
      else (true, st)
    else if hasFront (lit "#include \"") line then
      match handle_quoted ctx recurse file line st with
      | (false, st2) => (false, st2)
      | (true, st2) => scan_lines ctx recurse file ls pr.2 st2
    else if hasFront (lit "#include <") line then
      let r := getRec st file
      let pl := parse_libraries line r.libraries
      let st2 := setRec st file { r with libraries := pl.2 }
      if pl.1 then scan_lines ctx recurse file ls pr.2 st2 else (false, st2)
    else if line.isEmpty || hasFrontChar '#' line || hasFront (lit "//") line then
      scan_lines ctx recurse file ls pr.2 st
    else (true, st)

/-- generator parse_recursive_ (snn.cc lines 862-1003), with a gas
argument that drives the structural recursion.  Gas is kept equal to
129 minus depth at every call, so the zero-gas branch sits behind the
authoritative depth guard and is unreachable from parse_recursive. -/
def parse_go (ctx : GenCtx) : Nat → Str → Nat → ScanState → Bool × ScanState
  | gas, file, depth, st =>
    if depth > 128 then (false, st)
    else
      match gas with
      | 0 => (false, st)
      | g + 1 =>
        if mapContains st.deps file then (true, st)
        else
          let st1 : ScanState := { st with deps := st.deps ++ [(file, emptyRec)] }
          match ctx.read_file file with
          | none => (false, st1)
          | some contents =>
            if contents.isEmpty then (false, st1)
            else
              scan_lines ctx (fun f s => parse_go ctx g f (depth + 1) s) file
                (splitOnChar '\n' contents) initPP st1

/-- generator parse_recursive_ at its call interface. -/
def parse_recursive (ctx : GenCtx) (file : Str) (depth : Nat) (st : ScanState) :
    Bool × ScanState :=
  parse_go ctx (129 - depth) file depth st

/-- A context for the C6 witness: every file is unreadable. -/
def c6_ctx : GenCtx :=
  { pp := empty_env, home := [], read_file := fun _ => none }

/-! ## Closure queries over the populated map (for C8) -/

/-- All recorded source-file edges of the map. -/
def allSrc (m : DepMap) : List Str := m.foldr (fun e acc => e.2.source_files ++ acc) []

/-- All recorded header-file edges of the map. -/
def allHdr (m : DepMap) : List Str := m.foldr (fun e acc => e.2.header_files ++ acc) []

/-- All recorded edges. -/
def allEdges (m : DepMap) : List Str := allSrc m ++ allHdr m

/-- Every recorded source-file and header-file path is itself a key. -/
def edge_closed (m : DepMap) : Prop := ∀ p ∈ allEdges m, mapContains m p = true

/-- How many universe elements are not yet in the visited list. -/
def remCount (u : List Str) (visited : List Str) : Nat :=
  (u.filter (fun x => decide (x ∉ visited))).length

/-- Gas that bounds every chain of guarded recursive calls of the three
closure walks (each such call first inserts a fresh recorded edge into a
visited list). -/
def closure_fuel (m : DepMap) : Nat :=
  (allSrc m).dedup.length + (allHdr m).dedup.length + (allEdges m).dedup.length + 1

/-- The edge loop of header_dependencies_recursive_ (snn.cc lines
790-796): follow a header edge only when it was freshly inserted into the
visited set. -/
def header_fold (step : Str → List Str → Option (List Str)) :
    List Str → List Str → Option (List Str)
  | [], visited => some visited
  | h :: hs, visited =>
    if h ∈ visited then header_fold step hs visited
    else
      match step h (visited ++ [h]) with
      | none => none
      | some v => header_fold step hs v

/-- generator header_dependencies_recursive_ (snn.cc lines 786-797).
The fuel drives the structural recursion; a lookup miss models the
value() throw on a key that is not recorded. -/
def header_rec (m : DepMap) : Nat → Str → List Str → Option (List Str)
  | 0, _, _ => none
  | fuel + 1, file, visited =>
    match mapFind m file with
    | none => none
    | some r => header_fold (fun h v => header_rec m fuel h v) r.header_files visited

/-- generator header_dependencies_ (snn.cc lines 779-784). -/
def header_dependencies (m : DepMap) (file : Str) : Option (List Str) :=
  header_rec m (closure_fuel m) file []

/-- An edge loop guarded by (and inserting into) the first of the two
visited lists, the other passed through (the source-file loop of
source_dependencies_recursive_, snn.cc lines 1101-1107). -/
def fold_guard_fst (step : Str → List Str → List Str → Option (List Str × List Str)) :
    List Str → List Str → List Str → Option (List Str × List Str)
  | [], d, h => some (d, h)
  | x :: xs, d, h =>
    if x ∈ d then fold_guard_fst step xs d h
    else
      match step x (d ++ [x]) h with
      | none => none
      | some (d2, h2) => fold_guard_fst step xs d2 h2

/-- An edge loop guarded by (and inserting into) the second visited
list (the header loops of the source and library walks). -/
def fold_guard_snd (step : Str → List Str → List Str → Option (List Str × List Str)) :
    List Str → List Str → List Str → Option (List Str × List Str)
  | [], d, h => some (d, h)
  | x :: xs, d, h =>
    if x ∈ h then fold_guard_snd step xs d h
    else
      match step x d (h ++ [x]) with
      | none => none
      | some (d2, h2) => fold_guard_snd step xs d2 h2

/-- generator source_dependencies_recursive_ (snn.cc lines 1096-1116):
source edges are guarded by the dependencies set, header edges by the
handled set. -/
def source_rec (m : DepMap) : Nat → Str → List Str → List Str → Option (List Str × List Str)
  | 0, _, _, _ => none
  | fuel + 1, file, d, h =>
    match mapFind m file with
    | none => none
    | some r =>
      match fold_guard_fst (fun f d2 h2 => source_rec m fuel f d2 h2) r.source_files d h with
      | none => none
      | some (d2, h2) => fold_guard_snd (fun f d3 h3 => source_rec m fuel f d3 h3) r.header_files d2 h2

/-- generator source_dependencies_ (snn.cc lines 1087-1094): the root
source file is inserted into the dependencies set up front. -/
def source_dependencies (m : DepMap) (file : Str) : Option (List Str × List Str) :=
  source_rec m (closure_fuel m) file [file] []

/-- Insert every library of the record into the accumulated set. -/
def lib_insert_all (libs : List Str) (d : List Str) : List Str :=
  libs.foldl (fun acc l => (setInsert acc l).2) d

/-- generator library_dependencies_recursive_ (snn.cc lines 807-832):
collect the libraries of the record, then walk source and header edges,
both guarded by the single handled set. -/
def library_rec (m : DepMap) : Nat → Str → List Str → List Str → Option (List Str × List Str)
  | 0, _, _, _ => none
  | fuel + 1, file, d, h =>
    match mapFind m file with
    | none => none
    | some r =>
      let d1 := lib_insert_all r.libraries d
      match fold_guard_snd (fun f d2 h2 => library_rec m fuel f d2 h2) r.source_files d1 h with
      | none => none
      | some (d2, h2) => fold_guard_snd (fun f d3 h3 => library_rec m fuel f d3 h3) r.header_files d2 h2

/-- generator library_dependencies_ (snn.cc lines 799-805). -/
def library_dependencies (m : DepMap) (file : Str) : Option (List Str × List Str) :=
  library_rec m (closure_fuel m) file [] []

/-- A cyclic dependency map for the C8 witness: the application records
header a.hh, a.hh records b.hh, and b.hh records a.hh again. -/
def c8_map : DepMap :=
  [ (lit "app.cc", ⟨[lit "z"], [], [lit "a.hh"]⟩)
  , (lit "a.hh", ⟨[], [], [lit "b.hh"]⟩)
  , (lit "b.hh", ⟨[lit "pthread"], [], [lit "a.hh"]⟩) ]

/-! ## Adding an application source (for C10) -/

/-- Split a basename into stem and extension: the extension starts at
the last dot, except when that dot is the first character (hidden file).
Models snn-core file::path::split on the basename. -/
def splitBaseExt (basename : Str) : Str × Str :=
  match basename.reverse.findIdx? (fun c => decide (c = '.')) with
  | none => (basename, [])
  | some i =>
    let pos := basename.length - 1 - i
    if pos = 0 then (basename, []) else (basename.take pos, basename.drop pos)

/-- Models snn-core file::path::split: directory part up to and
including the last slash, then the basename split into stem and
extension. -/
def path_split (path : Str) : Str × Str × Str :=
  let dir := (path.reverse.dropWhile (fun c => !decide (c = '/'))).reverse
  let basename := (path.reverse.takeWhile (fun c => !decide (c = '/'))).reverse
  (dir, splitBaseExt basename)

/-- Lexicographic order on character lists (the order of the sorted
applications set). -/
def strLt : Str → Str → Bool
  | [], [] => false
  | [], _ :: _ => true
  | _ :: _, [] => false
  | a :: as, b :: bs => if a < b then true else if b < a then false else strLt as bs

/-- Ordered insert for the sorted applications set (called only below a
freshness check, as set sorted insert refuses duplicates). -/
def insertSortedStr : List Str → Str → List Str
  | [], x => [x]
  | a :: t, x => if strLt x a then x :: a :: t else a :: insertSortedStr t x

/-- generator add_application (snn.cc lines 56-122): the validation
chain, then the ignore-file check, then insertion into the sorted
applications set with a duplicate error. -/
def add_application (fs : Str → Bool) (apps : List Str) (path : Str) : Bool × List Str :=
  let sp := path_split path
  let dir := sp.1
  let base := sp.2.1
  let ext := sp.2.2
  if decide (ext ≠ lit ".cc") then (false, apps)
  else if is_base base = false then (false, apps)
  else if is_directory dir = false then (false, apps)
  else if hasFrontChar '/' dir then (false, apps)
  else if is_reserved_target dir base then (false, apps)
  else if hasFrontChar '.' path && decide ('/' ∉ path) then (false, apps)
  else if fs (path ++ lit ".ignore") then (true, apps)
  else if decide (path ∈ apps) then (false, apps)
  else (true, insertSortedStr apps path)

/-- The source loop of the driver (snn.cc lines 1241-1247): add each
argument, aborting on the first failure. -/
def add_all (fs : Str → Bool) (apps : List Str) : List Str → Option (List Str)
  | [] => some apps
  | p :: ps =>
    match add_application fs apps p with
    | (false, _) => none
    | (true, apps2) => add_all fs apps2 ps

/-- What the driver does right after the source loop (snn.cc lines
1241-1253): abort on an add failure, fail with the no-application-
source-files error when the set is empty, otherwise proceed. -/
inductive RunOutcome : Type
  | addFailed
  | noApplications
  | proceed (apps : List Str)
deriving DecidableEq

/-- The driver fragment around add_application. -/
def run_sources (fs : Str → Bool) (ps : List Str) : RunOutcome :=
  match add_all fs [] ps with
  | none => .addFailed
  | some apps => if apps.isEmpty then .noApplications else .proceed apps

/-- Witness filesystem for C10: exactly the ignore twin of app.cc
exists. -/
def c10_fs : Str → Bool := fun s => decide (s = lit "app.cc.ignore")

/-! ## Helper lemmas -/

theorem stripPfx_eq_some {p s r : Str} : stripPfx p s = some r ↔ s = p ++ r := by
  induction p generalizing s with
  | nil => simp [stripPfx]
  | cons a q ih =>
    cases s with
    | nil => simp [stripPfx]
    | cons b t =>
      by_cases hab : a = b
      · subst hab
        simp [stripPfx, ih]
      · simp [stripPfx, hab, Ne.symm hab]

theorem stripPfx_getD_of_none {p s : Str} (h : stripPfx p s = none) :
    (stripPfx p s).getD s = s := by
  simp [h]

theorem hasFront_iff {p s : Str} : hasFront p s = true ↔ ∃ r, s = p ++ r := by
  unfold hasFront
  cases h : stripPfx p s with
  | none =>
    simp only [Option.isSome_none, Bool.false_eq_true, false_iff]
    rintro ⟨r, rfl⟩
    rw [stripPfx_eq_some.mpr rfl] at h
    exact Option.noConfusion h
  | some r =>
    simp only [Option.isSome_some, true_iff]
    exact ⟨r, stripPfx_eq_some.mp h⟩

/-! ## C1 -/

/-- C1: seeded with the macro environment mapping __FreeBSD__ to 1 and
include path /usr/include/, on a filesystem where /usr/include/stdio.h is
a regular file, the evaluator produces exactly the twelve scenario-S1
verdicts compile, compile, compile, skip, skip, compile, skip, skip,
skip, skip, compile, compile. -/
theorem c1_s1_verdicts :
    (run_lines s1_env s1_lines initPP).1 =
      [Status.compile, .compile, .compile, .skip, .skip, .compile,
       .skip, .skip, .skip, .skip, .compile, .compile] := by
  decide

/-! ## C2 -/

theorem parse_expression_spec_eq (env : PPEnv) (r : Str) :
    parse_expression env r = eval_form env (expr_form r) := by
  simp only [parse_expression, expr_form]
  cases h1 : stripPfx (lit "defined(") ((stripPfx (lit "!") r).getD r) with
  | some r2 =>
    by_cases hm : is_macro_name (r2.takeWhile fun c => !decide (c = ')'))
    · cases h3 : stripPfx (lit ")") (r2.dropWhile fun c => !decide (c = ')')) with
      | none =>
        have hne : ¬ (r2.dropWhile fun c => !decide (c = ')')) = lit ")" := by
          intro he
          rw [he] at h3
          exact absurd h3 (by decide)
        simp [hm, h3, hne, eval_form]
      | some r3 =>
        have he := stripPfx_eq_some.mp h3
        cases r3 with
        | nil =>
          have hrw : (r2.dropWhile fun c => !decide (c = ')')) = lit ")" := by
            simpa using he
          have hc : stripPfx (lit ")") (lit ")") = some [] := by decide
          simp [hm, hrw, hc, eval_form]
        | cons a t =>
          have hne : ¬ (r2.dropWhile fun c => !decide (c = ')')) = lit ")" := by
            rw [he]
            intro hcontra
            have hlen := congrArg List.length hcontra
            simp [List.length_append] at hlen
          simp [hm, h3, hne, eval_form]
    · simp [hm, eval_form]
  | none =>
    cases h2 : stripPfx (lit "__has_include(<") ((stripPfx (lit "!") r).getD r) with
    | some r2 =>
      by_cases hf : is_file_path (r2.takeWhile fun c => !decide (c = '>'))
      · cases h3 : stripPfx (lit ">)") (r2.dropWhile fun c => !decide (c = '>')) with
        | none =>
          have hne : ¬ (r2.dropWhile fun c => !decide (c = '>')) = lit ">)" := by
            intro he
            rw [he] at h3
            exact absurd h3 (by decide)
          simp [hf, h3, hne, eval_form]
        | some r3 =>
          have he := stripPfx_eq_some.mp h3
          cases r3 with
          | nil =>
            have hrw : (r2.dropWhile fun c => !decide (c = '>')) = lit ">)" := by
              simpa using he
            have hc : stripPfx (lit ">)") (lit ">)") = some [] := by decide
            simp [hf, hrw, hc, eval_form]
          | cons a t =>
            have hne : ¬ (r2.dropWhile fun c => !decide (c = '>')) = lit ">)" := by
              rw [he]
              intro hcontra
              have hlen := congrArg List.length hcontra
              simp [List.length_append] at hlen
            simp [hf, h3, hne, eval_form]
      · simp [hf, eval_form]
    | none => simp [eval_form]

/-- C2: an if or elif argument is understood exactly when it is an
optional bang followed by defined(NAME) with a valid macro name or
__has_include(<PATH>) with a valid file path, consumed entirely; a
matching defined resolves to compile when the name is a key of the macro
environment and to skip otherwise, the bang swaps compile and skip, and
anything else is not understood; in particular defined(FOO) with FOO
undefined is skip, and a conjunction of two defined terms is not
understood. -/
theorem c2_expression_grammar :
    (∀ (env : PPEnv) (r : Str), parse_expression env r = eval_form env (expr_form r)) ∧
    parse_expression empty_env (lit "defined(FOO)") = .skip ∧
    parse_expression empty_env (lit "defined(FOO) && defined(BAR)") = .not_understood := by
  refine ⟨parse_expression_spec_eq, by decide, by decide⟩

/-! ## C9 -/

/-- C9: on an empty saved-pair stack, processing an endif line returns
the current state and leaves the evaluator untouched. -/
theorem c9_endif_empty_stack (env : PPEnv) (st : PPState) (line : Str)
    (hstack : st.stack = []) (hline : isEndifLine line = true) :
    process env st line = (st.state, st) := by
  unfold isEndifLine directiveToken? at hline
  cases h1 : stripPfx (lit "#") line with
  | none => simp [process, h1]
  | some r0 =>
    rw [h1] at hline
    have htok : (r0.dropWhile pp_is_space).takeWhile chr_is_alpha_lower = lit "endif" := by
      simpa using hline
    simp only [process, h1, htok]
    have h2 : (lit "endif" = lit "if") = False := by simp +decide [lit]
    have h3 : (lit "endif" = lit "elif") = False := by simp +decide [lit]
    have h4 : (lit "endif" = lit "else") = False := by simp +decide [lit]
    simp [h2, h3, h4, hstack]

/-- C9 witness: a concrete endif on a fresh evaluator. -/
theorem c9_witness :
    process empty_env initPP (lit "#endif") = (Status.compile, initPP) :=
  c9_endif_empty_stack empty_env initPP (lit "#endif") rfl (by decide)

/-! ## C3 -/

theorem process_list_cons (env : PPEnv) (l : Str) (ls : List Str) (st : PPState) :
    process_list env (l :: ls) st = process_list env ls (process env st l).2 := rfl

theorem process_list_append (env : PPEnv) (xs ys : List Str) (st : PPState) :
    process_list env (xs ++ ys) st = process_list env ys (process_list env xs st) := by
  unfold process_list
  simp [List.foldl_append]

theorem process_stack_other (env : PPEnv) (st : PPState) (l : Str)
    (hif : isIfLine l = false) (hend : isEndifLine l = false) :
    (process env st l).2.stack = st.stack := by
  cases h1 : stripPfx (lit "#") l with
  | none => simp [process, h1]
  | some r0 =>
    have hnif : ¬ (r0.dropWhile pp_is_space).takeWhile chr_is_alpha_lower = lit "if" := by
      intro he
      simp [isIfLine, directiveToken?, h1, he] at hif
    have hnend : ¬ (r0.dropWhile pp_is_space).takeWhile chr_is_alpha_lower = lit "endif" := by
      intro he
      simp [isEndifLine, directiveToken?, h1, he] at hend
    simp only [process, h1]
    by_cases helif : (r0.dropWhile pp_is_space).takeWhile chr_is_alpha_lower = lit "elif"
    · by_cases hh : st.handled = false
      · simp +decide [hnif, helif, hh]
      · by_cases hs : st.state = .compile <;> simp +decide [hnif, helif, hh, hs]
    · by_cases helse : (r0.dropWhile pp_is_space).takeWhile chr_is_alpha_lower = lit "else"
      · by_cases hh : st.handled = false
        · simp +decide [hnif, helif, helse, hh]
        · by_cases hs : st.state = .compile <;> simp +decide [hnif, helif, helse, hh, hs]
      · simp [hnif, helif, helse, hnend]

theorem process_stack_if (env : PPEnv) (st : PPState) (l : Str)
    (hif : isIfLine l = true) :
    (process env st l).2.stack = (st.state, st.handled) :: st.stack := by
  unfold isIfLine directiveToken? at hif
  cases h1 : stripPfx (lit "#") l with
  | none => rw [h1] at hif; simp at hif
  | some r0 =>
    rw [h1] at hif
    have htok : (r0.dropWhile pp_is_space).takeWhile chr_is_alpha_lower = lit "if" := by
      simpa using hif
    simp only [process, h1, htok]
    by_cases hs : st.state = .compile <;> simp [hs]

theorem process_endif_pop (env : PPEnv) (st : PPState) (l : Str) (p : Status × Bool)
    (rest : List (Status × Bool)) (hend : isEndifLine l = true) (hstk : st.stack = p :: rest) :
    process env st l = (p.1, ⟨rest, p.1, p.2⟩) := by
  unfold isEndifLine directiveToken? at hend
  cases h1 : stripPfx (lit "#") l with
  | none => rw [h1] at hend; simp at hend
  | some r0 =>
    rw [h1] at hend
    have htok : (r0.dropWhile pp_is_space).takeWhile chr_is_alpha_lower = lit "endif" := by
      simpa using hend
    simp only [process, h1, htok]
    have h2 : (lit "endif" = lit "if") = False := by simp +decide [lit]
    have h3 : (lit "endif" = lit "elif") = False := by simp +decide [lit]
    have h4 : (lit "endif" = lit "else") = False := by simp +decide [lit]
    simp [h2, h3, h4, hstk]

theorem seq_stack (env : PPEnv) {ls : List Str} (hb : BalancedSeq ls) :
    ∀ st : PPState, (process_list env ls st).stack = st.stack := by
  induction hb with
  | nil => intro st; rfl
  | other l ls hif hend _ ih =>
    intro st
    rw [process_list_cons, ih, process_stack_other env st l hif hend]
  | block l body l2 rest hif _ hend _ ih_body ih_rest =>
    intro st
    rw [process_list_cons]
    have hsplit : body ++ l2 :: rest = (body ++ [l2]) ++ rest := by simp
    rw [hsplit, process_list_append, process_list_append]
    have hstk2 : (process_list env body (process env st l).2).stack
        = (st.state, st.handled) :: st.stack := by
      rw [ih_body, process_stack_if env st l hif]
    have hpop : process env (process_list env body (process env st l).2) l2
        = (st.state, ⟨st.stack, st.state, st.handled⟩) :=
      process_endif_pop env _ l2 (st.state, st.handled) st.stack hend hstk2
    have hl2 : process_list env [l2] (process_list env body (process env st l).2)
        = ⟨st.stack, st.state, st.handled⟩ := by
      rw [process_list_cons, hpop]
      rfl
    rw [hl2, ih_rest]

/-- C3: from any evaluator configuration, processing a balanced
conditional block (an if line, a balanced body, the matching endif)
restores the state, the handled flag and the stack to their values
before the opening if. -/
theorem c3_balanced_block (env : PPEnv) (st : PPState) (l : Str) (body : List Str) (l2 : Str)
    (hif : isIfLine l = true) (hbody : BalancedSeq body) (hend : isEndifLine l2 = true) :
    process_list env (l :: (body ++ [l2])) st = st := by
  rw [process_list_cons, process_list_append]
  have hstk2 : (process_list env body (process env st l).2).stack
      = (st.state, st.handled) :: st.stack := by
    rw [seq_stack env hbody, process_stack_if env st l hif]
  have hpop : process env (process_list env body (process env st l).2) l2
      = (st.state, ⟨st.stack, st.state, st.handled⟩) :=
    process_endif_pop env _ l2 (st.state, st.handled) st.stack hend hstk2
  rw [process_list_cons, hpop]
  rfl

/-- C3 witness: one concrete block on a concrete evaluator state. -/
theorem c3_witness :
    isIfLine (lit "#if defined(A)") = true ∧ isEndifLine (lit "#endif") = true ∧
    process_list empty_env [lit "#if defined(A)", lit "#endif"]
      ⟨[(Status.skip, true)], Status.compile, false⟩
      = ⟨[(Status.skip, true)], Status.compile, false⟩ :=
  ⟨by decide, by decide,
    c3_balanced_block empty_env ⟨[(Status.skip, true)], Status.compile, false⟩
      (lit "#if defined(A)") [] (lit "#endif") (by decide) BalancedSeq.nil (by decide)⟩

/-! ## C4 -/

theorem dropWhile_length_le (p : Char → Bool) :
    ∀ l : List Char, (l.dropWhile p).length ≤ l.length := by
  intro l
  induction l with
  | nil => simp [List.dropWhile]
  | cons a t ih =>
    rw [List.dropWhile_cons]
    cases hpa : p a
    · simp
    · simp
      omega

theorem is_base_no_slash {b : Str} (h : is_base b = true) : ∀ c ∈ b, ¬ c = '/' := by
  unfold is_base at h
  cases hs : stripPfx (lit ".") b with
  | none =>
    rw [hs] at h
    simp only [Option.getD_none, Bool.and_eq_true, List.isEmpty_iff] at h
    have hall : ∀ c ∈ b, base_char c = true := by
      rw [← List.dropWhile_eq_nil_iff]
      exact h.2
    intro c hc hcs
    have := hall c hc
    rw [hcs] at this
    exact absurd this (by decide)
  | some r =>
    have hb : b = '.' :: r := stripPfx_eq_some.mp hs
    rw [hs] at h
    simp only [Option.getD_some, Bool.and_eq_true, List.isEmpty_iff] at h
    have hall : ∀ c ∈ r, base_char c = true := by
      rw [← List.dropWhile_eq_nil_iff]
      exact h.2
    intro c hc hcs
    rw [hb] at hc
    rcases List.mem_cons.mp hc with hdot | hmem
    · rw [hcs] at hdot
      exact absurd hdot (by decide)
    · have := hall c hmem
      rw [hcs] at this
      exact absurd this (by decide)

theorem span_no_slash {b : Str} (t : Str) (hb : ∀ c ∈ b, ¬ c = '/') :
    (b ++ '/' :: t).takeWhile (fun x => !decide (x = '/')) = b ∧
    (b ++ '/' :: t).dropWhile (fun x => !decide (x = '/')) = '/' :: t := by
  induction b with
  | nil => simp [List.takeWhile, List.dropWhile]
  | cons a b2 ih =>
    have ha : ¬ a = '/' := hb a (by simp)
    have ih2 := ih (fun c hc => hb c (by simp [hc]))
    rw [List.cons_append, List.takeWhile_cons, List.dropWhile_cons]
    simp only [ha, decide_False, Bool.not_false, eq_self_iff_true, if_true]
    constructor
    · rw [ih2.1]
    · rw [ih2.2]

theorem dirComponentsF_iff : ∀ (fuel : Nat) (r : Str), r.length ≤ fuel →
    (dirComponentsF fuel r = true ↔
      ∃ bs, (∀ b ∈ bs, is_base b = true) ∧ r = joinComps bs) := by
  intro fuel
  induction fuel with
  | zero =>
    intro r hr
    have hr0 : r = [] := by simpa using hr
    subst hr0
    constructor
    · intro _
      exact ⟨[], by simp, rfl⟩
    · intro _
      rfl
  | succ fuel ih =>
    intro r hr
    cases r with
    | nil =>
      constructor
      · intro _
        exact ⟨[], by simp, rfl⟩
      · intro _
        rfl
    | cons c cs =>
      constructor
      · intro h
        simp only [dirComponentsF] at h
        by_cases hb : is_base ((c :: cs).takeWhile fun x => !decide (x = '/'))
        case neg => rw [if_neg hb] at h; exact absurd h (by simp)
        rw [if_pos hb] at h
        cases hdrop : (c :: cs).dropWhile (fun x => !decide (x = '/')) with
        | nil => rw [hdrop] at h; exact absurd h (by simp)
        | cons d rest =>
          rw [hdrop] at h
          by_cases hd : d = '/'
          case neg =>
            have hred : (match d :: rest with
                | d :: rest => if d = '/' then dirComponentsF fuel rest else false
                | [] => false) = false := by simp [hd]
            rw [hred] at h
            exact absurd h (by simp)
          subst hd
          have hred : (match '/' :: rest with
              | d :: rest => if d = '/' then dirComponentsF fuel rest else false
              | [] => false) = dirComponentsF fuel rest := by simp
          rw [hred] at h
          have hsplit := List.takeWhile_append_dropWhile
            (p := fun x => !decide (x = '/')) (l := c :: cs)
          have hlen : rest.length ≤ fuel := by
            have h1 := congrArg List.length hsplit
            rw [hdrop] at h1
            simp only [List.length_append, List.length_cons] at h1 hr
            omega
          obtain ⟨bs2, hall, heq⟩ := (ih rest hlen).mp h
          refine ⟨(c :: cs).takeWhile (fun x => !decide (x = '/')) :: bs2, ?_, ?_⟩
          · intro b hb2
            rcases List.mem_cons.mp hb2 with hhd | htl
            · rw [hhd]; exact hb
            · exact hall b htl
          · conv_lhs => rw [← hsplit]
            rw [hdrop, heq]
            rfl
      · rintro ⟨bs, hall, heq⟩
        cases bs with
        | nil => exact absurd heq (by simp [joinComps])
        | cons b bs2 =>
          have hbase := hall b (by simp)
          have hspan := span_no_slash (joinComps bs2) (is_base_no_slash hbase)
          have htw : (c :: cs).takeWhile (fun x => !decide (x = '/')) = b := by
            rw [heq]; exact hspan.1
          have hdw : (c :: cs).dropWhile (fun x => !decide (x = '/'))
              = '/' :: joinComps bs2 := by
            rw [heq]; exact hspan.2
          have hlen : (joinComps bs2).length ≤ fuel := by
            have h1 := congrArg List.length heq
            simp only [joinComps, List.length_append, List.length_cons] at h1 hr
            omega
          have hgoal := (ih (joinComps bs2) hlen).mpr
            ⟨bs2, fun x hx => hall x (by simp [hx]), rfl⟩
          simp [dirComponentsF, htw, hdw, hbase, hgoal]

/-- C4 counterexample: the claim asserts that a/./b/, ././a/ and a/../b/
are accepted, but is_directory rejects all three (dot and dot-dot are
only skipped as front prefixes and are not valid is_base components). -/
theorem c4_counterexample :
    is_directory (lit "a/./b/") = false ∧ is_directory (lit "././a/") = false ∧
    is_directory (lit "a/../b/") = false := by
  decide

/-- C4 amended: is_directory accepts exactly the strings that, after one
optional leading slash, then one optional dot-slash, then any number of
dot-dot-slashes, consist of a concatenation of is_base components each
followed by a slash (the empty remainder included). -/
theorem c4_directory_grammar (s : Str) :
    is_directory s = true ↔
      ∃ bs, (∀ b ∈ bs, is_base b = true) ∧ stripDirFront s = joinComps bs := by
  have hdef : is_directory s = dirComponentsF (stripDirFront s).length (stripDirFront s) := rfl
  rw [hdef]
  exact dirComponentsF_iff _ _ le_rfl

/-! ## C5 -/

theorem try_parents_eq (ctx : GenCtx) (file : Str) :
    ∀ (n : Nat) (p : Str),
      try_parents ctx file p n
        = ((List.range n).map (fun k => p ++ dotdots k)).find?
            (fun rt => ctx.pp.is_regular (rt ++ file)) := by
  intro n
  induction n with
  | zero => intro p; simp [try_parents]
  | succ n ih =>
    intro p
    rw [List.range_succ_eq_map]
    by_cases hreg : ctx.pp.is_regular (p ++ file)
    · simp [try_parents, hreg, dotdots]
    · have hstep : try_parents ctx file p (n + 1) = try_parents ctx file (p ++ lit "../") n := by
        simp [try_parents, hreg]
      rw [hstep, ih (p ++ lit "../"), List.map_cons, List.map_map]
      have hhead2 : ctx.pp.is_regular ((p ++ dotdots 0) ++ file) = false :=
        Bool.eq_false_iff.mpr (by simpa [dotdots] using hreg)
      conv_rhs => rw [List.find?_cons]
      simp only [hhead2]
      congr 1
      apply List.map_congr_left
      intro k _
      show (p ++ lit "../") ++ dotdots k = p ++ dotdots (k + 1)
      rw [List.append_assoc]
      rfl

/-- C5 counterexample: the claim says the probe tries up to ten levels of
parent directories, but with the only regular file ten levels up (and no
home fallback) the probe fails even though the path is relative. -/
theorem c5_counterexample :
    detect_include_path c5_ctx (lit "a.hh") [] = (false, []) ∧
    c5_ctx.pp.is_regular (dotdots 10 ++ lit "a.hh") = true ∧
    is_absolute (lit "a.hh") = false := by
  refine ⟨by decide, by decide, by decide⟩

/-- C5 amended: the probe fails on absolute paths; otherwise it returns
the first root among the current directory and one through nine (not
ten) levels of parent directories under which the path names a regular
file, and with no such root it falls back to home joined with
project/cpp/, succeeding with that root exactly when the combination is
a valid file path naming a regular file. -/
theorem c5_include_root_probe (ctx : GenCtx) (file : Str) (ip0 : Str) :
    ((detect_include_path ctx file ip0).1 = (detect_spec ctx file).isSome) ∧
    (∀ rt, detect_spec ctx file = some rt → detect_include_path ctx file ip0 = (true, rt)) := by
  unfold detect_include_path detect_spec include_roots
  by_cases habs : is_absolute file
  · simp [habs]
  by_cases h0 : ctx.pp.is_regular (lit "./" ++ file)
  · simp [habs, h0]
  have heq : (List.range 9).map (fun k => dotdots (k + 1))
      = (List.range 9).map (fun k => (lit "../") ++ dotdots k) := by
    apply List.map_congr_left
    intro k _
    rfl
  cases hfind : try_parents ctx file (lit "../") 9 with
  | some rt =>
    have : ((List.range 9).map (fun k => dotdots (k + 1))).find?
        (fun rt => ctx.pp.is_regular (rt ++ file)) = some rt := by
      rw [heq, ← try_parents_eq]
      exact hfind
    simp [habs, h0, hfind, this]
  | none =>
    have hnone : ((List.range 9).map (fun k => dotdots (k + 1))).find?
        (fun rt => ctx.pp.is_regular (rt ++ file)) = none := by
      rw [heq, ← try_parents_eq]
      exact hfind
    by_cases hh : ctx.home.isEmpty
    · simp [habs, h0, hfind, hnone, hh]
    · by_cases hfp : is_file_path (path_join ctx.home (lit "project/cpp/") ++ file)
      · by_cases hreg : ctx.pp.is_regular (path_join ctx.home (lit "project/cpp/") ++ file)
        · simp [habs, h0, hfind, hnone, hh, hfp, hreg]
        · simp [habs, h0, hfind, hnone, hh, hfp, hreg]
      · simp [habs, h0, hfind, hnone, hh, hfp]

/-- C5 witness for the amended probe: with the file regular under the
current directory, the spec picks the first root and the probe agrees. -/
theorem c5_witness :
    detect_spec c5w_ctx (lit "a.hh") = some (lit "./") ∧
    detect_include_path c5w_ctx (lit "a.hh") [] = (true, lit "./") :=
  ⟨by decide,
    (c5_include_root_probe c5w_ctx (lit "a.hh") []).2 (lit "./") (by decide)⟩

/-! ## C7 -/

theorem parse_libs_words_spec :
    ∀ (ws : List Str) (libs : List Str),
      ((parse_libs_words ws libs).1
        = (((ws.filter (fun w => hasFront (lit "[#lib:") w && hasBackChar ']' w)).map
            (fun w => (w.drop 6).dropLast)).all is_library)) ∧
      ((((ws.filter (fun w => hasFront (lit "[#lib:") w && hasBackChar ']' w)).map
            (fun w => (w.drop 6).dropLast)).all is_library) = true →
        (parse_libs_words ws libs).2
          = (((ws.filter (fun w => hasFront (lit "[#lib:") w && hasBackChar ']' w)).map
              (fun w => (w.drop 6).dropLast)).foldl (fun l n => (setInsert l n).2) libs)) := by
  intro ws
  induction ws with
  | nil => intro libs; simp [parse_libs_words]
  | cons w ws ih =>
    intro libs
    by_cases hw : (hasFront (lit "[#lib:") w && hasBackChar ']' w) = true
    · by_cases hl : is_library ((w.drop 6).dropLast) = true
      · have hstep : parse_libs_words (w :: ws) libs
            = parse_libs_words ws (setInsert libs ((w.drop 6).dropLast)).2 := by
          simp only [parse_libs_words]
          rw [if_pos hw, if_pos hl]
        refine ⟨?_, ?_⟩
        · rw [hstep, List.filter_cons_of_pos (p := fun w => hasFront (lit "[#lib:") w && hasBackChar ']' w) hw]
          simp only [List.map_cons, List.all_cons, hl, Bool.true_and]
          exact (ih _).1
        · intro hall
          rw [List.filter_cons_of_pos (p := fun w => hasFront (lit "[#lib:") w && hasBackChar ']' w) hw, List.map_cons, List.all_cons,
            Bool.and_eq_true] at hall
          rw [hstep, List.filter_cons_of_pos (p := fun w => hasFront (lit "[#lib:") w && hasBackChar ']' w) hw, List.map_cons, List.foldl_cons]
          exact (ih _).2 hall.2
      · have hl2 : is_library ((w.drop 6).dropLast) = false := Bool.eq_false_iff.mpr hl
        have hstep : parse_libs_words (w :: ws) libs = (false, libs) := by
          simp only [parse_libs_words]
          rw [if_pos hw, if_neg hl]
        refine ⟨?_, ?_⟩
        · rw [hstep, List.filter_cons_of_pos (p := fun w => hasFront (lit "[#lib:") w && hasBackChar ']' w) hw]
          simp [hl2]
        · intro hall
          rw [List.filter_cons_of_pos (p := fun w => hasFront (lit "[#lib:") w && hasBackChar ']' w) hw, List.map_cons, List.all_cons] at hall
          simp [hl2] at hall
    · have hstep : parse_libs_words (w :: ws) libs = parse_libs_words ws libs := by
        simp only [parse_libs_words]
        rw [if_neg hw]
      rw [hstep, List.filter_cons_of_neg (p := fun w => hasFront (lit "[#lib:") w && hasBackChar ']' w) hw]
      exact ih libs

/-- C7: extraction scans the tokens after the first bracket that start
with the lib marker and end with a bracket; it succeeds exactly when all
enclosed names are valid library names, and then the library set gains
exactly those names in order; the two-annotation example line yields
z and pthread, and a digit-first name makes extraction fail. -/
theorem c7_library_annotations :
    (∀ (line : Str) (libs : List Str),
      ((parse_libraries line libs).1 = (lib_names line).all is_library) ∧
      ((lib_names line).all is_library = true →
        (parse_libraries line libs).2
          = (lib_names line).foldl (fun l n => (setInsert l n).2) libs)) ∧
    parse_libraries (lit "#include \"x.hh\" // [#lib:z] [#lib:pthread]") []
      = (true, [lit "z", lit "pthread"]) ∧
    (parse_libraries (lit "#include \"y.hh\" // [#lib:1bad]") []).1 = false := by
  refine ⟨?_, by decide, by decide⟩
  intro line libs
  unfold parse_libraries lib_names
  cases hidx : line.findIdx? (fun c => decide (c = '[')) with
  | none => simp
  | some pos => exact parse_libs_words_spec (splitOnChar ' ' (line.drop pos)) libs

/-- C7 witness: the general statement applied to the example line with a
nonempty starting set, the validity hypothesis discharged by
computation. -/
theorem c7_witness :
    (lib_names (lit "#include \"x.hh\" // [#lib:z] [#lib:pthread]")).all is_library = true ∧
    (parse_libraries (lit "#include \"x.hh\" // [#lib:z] [#lib:pthread]") [lit "m"]).2
      = (lib_names (lit "#include \"x.hh\" // [#lib:z] [#lib:pthread]")).foldl
          (fun l n => (setInsert l n).2) [lit "m"] :=
  ⟨by decide,
    (c7_library_annotations.1 (lit "#include \"x.hh\" // [#lib:z] [#lib:pthread]")
      [lit "m"]).2 (by decide)⟩

/-! ## C10 -/

/-- C10: when a path passes every validation check of add_application
and its ignore twin names a regular file, add_application succeeds while
leaving the applications set unchanged — for any current set, so the
duplicate error cannot fire — and a run whose every application argument
is such an ignored path ends with an empty applications set, which the
driver answers with the no-application-source-files failure. -/
theorem c10_ignored_application (fs : Str → Bool) (path : Str)
    (hext : (path_split path).2.2 = lit ".cc")
    (hbase : is_base (path_split path).2.1 = true)
    (hdir : is_directory (path_split path).1 = true)
    (hslash : hasFrontChar '/' (path_split path).1 = false)
    (hres : is_reserved_target (path_split path).1 (path_split path).2.1 = false)
    (hdot : (hasFrontChar '.' path && decide ('/' ∉ path)) = false)
    (hig : fs (path ++ lit ".ignore") = true) :
    (∀ apps : List Str, add_application fs apps path = (true, apps)) ∧
    (∀ n : Nat, run_sources fs (List.replicate n path) = RunOutcome.noApplications) := by
  have hdot2 : hasFrontChar '.' path = true → '/' ∈ path := by
    intro hfc
    by_contra hm
    have hd : decide ('/' ∉ path) = true := by simpa using hm
    rw [hfc, hd] at hdot
    simp at hdot
  have hadd : ∀ apps : List Str, add_application fs apps path = (true, apps) := by
    intro apps
    simp only [add_application]
    simp [hext, hbase, hdir, hslash, hres, hig]
    exact hdot2
  refine ⟨hadd, ?_⟩
  have hall : ∀ n : Nat, add_all fs [] (List.replicate n path) = some [] := by
    intro n
    induction n with
    | zero => rfl
    | succ n ihn =>
      rw [List.replicate_succ]
      simp only [add_all, hadd []]
      exact ihn
  intro n
  simp [run_sources, hall n]

/-- C10 witness: app.cc passes validation, app.cc.ignore exists, the add
is a no-op and a run with only that application reports no application
source files. -/
theorem c10_witness :
    add_application c10_fs [] (lit "app.cc") = (true, []) ∧
    run_sources c10_fs [lit "app.cc"] = RunOutcome.noApplications := by
  have h := c10_ignored_application c10_fs (lit "app.cc") (by decide) (by decide)
    (by decide) (by decide) (by decide) (by decide) (by decide)
  exact ⟨h.1 [], h.2 1⟩

/-! ## C6 -/

theorem mapContains_eq_mem_keys (m : DepMap) (k : Str) :
    mapContains m k = true ↔ k ∈ m.map Prod.fst := by
  simp [mapContains, List.any_eq_true, List.mem_map]

theorem mapUpdate_keys (m : DepMap) (k : Str) (r : DepRec) :
    (mapUpdate m k r).map Prod.fst = m.map Prod.fst := by
  unfold mapUpdate
  rw [List.map_map]
  apply List.map_congr_left
  intro e _
  by_cases he : e.1 = k <;> simp [he]

theorem setRec_contains (st : ScanState) (k : Str) (r : DepRec) (k2 : Str)
    (h : mapContains st.deps k2 = true) : mapContains (setRec st k r).deps k2 = true := by
  rw [mapContains_eq_mem_keys] at h ⊢
  show k2 ∈ (mapUpdate st.deps k r).map Prod.fst
  rw [mapUpdate_keys]
  exact h

theorem append_contains (m : DepMap) (e : Str × DepRec) (k2 : Str)
    (h : mapContains m k2 = true) : mapContains (m ++ [e]) k2 = true := by
  simp [mapContains, List.any_append] at h ⊢
  exact Or.inl h

theorem follow_twin_keys (ctx : GenCtx) (recurse : Str → ScanState → Bool × ScanState)
    (hrec : ∀ f s k2, mapContains s.deps k2 = true →
      mapContains (recurse f s).2.deps k2 = true)
    (file file_next : Str) (st4 : ScanState) (k2 : Str)
    (h : mapContains st4.deps k2 = true) :
    mapContains (follow_twin ctx recurse file file_next st4).2.deps k2 = true := by
  simp only [follow_twin]
  split
  · exact hrec _ _ k2 (setRec_contains _ file _ k2 h)
  · exact h

theorem follow_header_keys (ctx : GenCtx) (recurse : Str → ScanState → Bool × ScanState)
    (hrec : ∀ f s k2, mapContains s.deps k2 = true →
      mapContains (recurse f s).2.deps k2 = true)
    (file file_next : Str) (st3 : ScanState) (k2 : Str)
    (h : mapContains st3.deps k2 = true) :
    mapContains (follow_header ctx recurse file file_next st3).2.deps k2 = true := by
  simp only [follow_header]
  cases hres : recurse file_next st3 with
  | mk b st4 =>
    have h4 := hrec file_next st3 k2 h
    rw [hres] at h4
    cases b
    · exact h4
    · exact follow_twin_keys ctx recurse hrec file file_next st4 k2 h4

theorem resolve_include_keys (ctx : GenCtx) (recurse : Str → ScanState → Bool × ScanState)
    (hrec : ∀ f s k2, mapContains s.deps k2 = true →
      mapContains (recurse f s).2.deps k2 = true)
    (file path : Str) (st1 : ScanState) (k2 : Str)
    (h : mapContains st1.deps k2 = true) :
    mapContains (resolve_include ctx recurse file path st1).2.deps k2 = true := by
  simp only [resolve_include]
  split
  all_goals
    split
    · exact h
    · split
      · exact follow_header_keys ctx recurse hrec file _ _ k2 (setRec_contains _ file _ k2 h)
      · exact setRec_contains _ file _ k2 h

theorem handle_quoted_keys (ctx : GenCtx) (recurse : Str → ScanState → Bool × ScanState)
    (hrec : ∀ f s k2, mapContains s.deps k2 = true →
      mapContains (recurse f s).2.deps k2 = true)
    (file line : Str) (st : ScanState) (k2 : Str)
    (h : mapContains st.deps k2 = true) :
    mapContains (handle_quoted ctx recurse file line st).2.deps k2 = true := by
  simp only [handle_quoted]
  split
  · exact setRec_contains _ file _ k2 h
  · split
    · exact setRec_contains _ file _ k2 h
    · split
      · exact setRec_contains _ file _ k2 h
      · exact resolve_include_keys ctx recurse hrec file _ _ k2 (setRec_contains _ file _ k2 h)

theorem scan_lines_keys (ctx : GenCtx) (recurse : Str → ScanState → Bool × ScanState)
    (hrec : ∀ f s k2, mapContains s.deps k2 = true →
      mapContains (recurse f s).2.deps k2 = true) (file : Str) :
    ∀ (lines : List Str) (pp : PPState) (st : ScanState) (k2 : Str),
      mapContains st.deps k2 = true →
      mapContains (scan_lines ctx recurse file lines pp st).2.deps k2 = true := by
  intro lines
  induction lines with
  | nil => intro pp st k2 h; exact h
  | cons l ls ih =>
    intro pp st k2 h
    simp only [scan_lines]
    split
    · split
      · exact ih _ _ k2 h
      · exact h
    · split
      · cases hh : handle_quoted ctx recurse file (trim l) st with
        | mk b st2 =>
          have h2 := handle_quoted_keys ctx recurse hrec file (trim l) st k2 h
          rw [hh] at h2
          cases b
          · exact h2
          · exact ih _ _ k2 h2
      · split
        · split
          · exact ih _ _ k2 (setRec_contains _ file _ k2 h)
          · exact setRec_contains _ file _ k2 h
        · split
          · exact ih _ _ k2 h
          · exact h

theorem parse_go_zero (ctx : GenCtx) (file : Str) (depth : Nat) (st : ScanState) :
    parse_go ctx 0 file depth st = (false, st) := by
  simp only [parse_go]
  split <;> rfl

theorem parse_go_succ (ctx : GenCtx) (g : Nat) (file : Str) (depth : Nat) (st : ScanState) :
    parse_go ctx (g + 1) file depth st =
      if depth > 128 then (false, st)
      else if mapContains st.deps file then (true, st)
      else
        let st1 : ScanState := { st with deps := st.deps ++ [(file, emptyRec)] }
        match ctx.read_file file with
        | none => (false, st1)
        | some contents =>
          if contents.isEmpty then (false, st1)
          else
            scan_lines ctx (fun f s => parse_go ctx g f (depth + 1) s) file
              (splitOnChar '\n' contents) initPP st1 := rfl

theorem parse_go_keys (ctx : GenCtx) :
    ∀ (gas : Nat) (file : Str) (depth : Nat) (st : ScanState) (k2 : Str),
      mapContains st.deps k2 = true →
      mapContains (parse_go ctx gas file depth st).2.deps k2 = true := by
  intro gas
  induction gas with
  | zero =>
    intro file depth st k2 h
    rw [parse_go_zero]
    exact h
  | succ g ih =>
    intro file depth st k2 h
    rw [parse_go_succ]
    split
    · exact h
    · split
      · exact h
      · have h1 : mapContains (st.deps ++ [(file, emptyRec)]) k2 = true :=
          append_contains _ _ _ h
        cases hr : ctx.read_file file with
        | none => exact h1
        | some contents =>
          dsimp only
          split
          · exact h1
          · exact scan_lines_keys ctx _ (fun f s k3 hk => ih f (depth + 1) s k3 hk)
              file (splitOnChar '\n' contents) initPP
              { st with deps := st.deps ++ [(file, emptyRec)] } k2 h1

theorem parse_go_inserts (ctx : GenCtx) (g : Nat) (file : Str) (depth : Nat) (st : ScanState)
    (hd : ¬ depth > 128) :
    mapContains (parse_go ctx (g + 1) file depth st).2.deps file = true := by
  rw [parse_go_succ, if_neg hd]
  split
  next hcon => exact hcon
  next hncon =>
    have h1 : mapContains (st.deps ++ [(file, emptyRec)]) file = true := by
      simp [mapContains, List.any_append]
    cases hr : ctx.read_file file with
    | none => exact h1
    | some contents =>
      dsimp only
      split
      · exact h1
      · exact scan_lines_keys ctx _ (fun f s k3 hk => parse_go_keys ctx g f (depth + 1) s k3 hk)
          file (splitOnChar '\n' contents) initPP
          { st with deps := st.deps ++ [(file, emptyRec)] } file h1

theorem parse_recursive_of_mem (ctx : GenCtx) (file : Str) (depth : Nat) (st : ScanState)
    (hd : depth ≤ 128) (h : mapContains st.deps file = true) :
    parse_recursive ctx file depth st = (true, st) := by
  unfold parse_recursive
  obtain ⟨g, hg⟩ : ∃ g, 129 - depth = g + 1 := ⟨128 - depth, by omega⟩
  rw [hg, parse_go_succ, if_neg (by omega), if_pos h]

theorem parse_recursive_inserts (ctx : GenCtx) (file : Str) (depth : Nat) (st : ScanState)
    (hd : depth ≤ 128) :
    mapContains (parse_recursive ctx file depth st).2.deps file = true := by
  unfold parse_recursive
  obtain ⟨g, hg⟩ : ∃ g, 129 - depth = g + 1 := ⟨128 - depth, by omega⟩
  rw [hg]
  exact parse_go_inserts ctx g file depth st (by omega)

/-- C6: at a depth within the limit, parse_recursive on a file that is
already a key of the dependency map returns success immediately and
leaves the whole scanner state (every record included) unchanged;
consequently running parse_recursive twice leaves the state exactly as
the first call produced it. -/
theorem c6_parse_recursive_idempotent (ctx : GenCtx) (file : Str) (depth : Nat)
    (st : ScanState) (hd : depth ≤ 128) :
    (mapContains st.deps file = true → parse_recursive ctx file depth st = (true, st)) ∧
    parse_recursive ctx file depth (parse_recursive ctx file depth st).2
      = (true, (parse_recursive ctx file depth st).2) := by
  refine ⟨parse_recursive_of_mem ctx file depth st hd, ?_⟩
  exact parse_recursive_of_mem ctx file depth _ hd
    (parse_recursive_inserts ctx file depth st hd)

/-- C6 witness: depth zero, a file that is already recorded, and a fresh
run from an empty map both behave as stated. -/
theorem c6_witness :
    parse_recursive c6_ctx (lit "f.cc") 0 ⟨[(lit "f.cc", emptyRec)], []⟩
      = (true, ⟨[(lit "f.cc", emptyRec)], []⟩) ∧
    parse_recursive c6_ctx (lit "f.cc") 0
        (parse_recursive c6_ctx (lit "f.cc") 0 ⟨[], []⟩).2
      = (true, (parse_recursive c6_ctx (lit "f.cc") 0 ⟨[], []⟩).2) :=
  ⟨(c6_parse_recursive_idempotent c6_ctx (lit "f.cc") 0 ⟨[(lit "f.cc", emptyRec)], []⟩
      (by decide)).1 (by decide),
   (c6_parse_recursive_idempotent c6_ctx (lit "f.cc") 0 ⟨[], []⟩ (by decide)).2⟩

/-! ## C8 -/

theorem mem_allSrc {m : DepMap} {e : Str × DepRec} (he : e ∈ m) {x : Str}
    (hx : x ∈ e.2.source_files) : x ∈ allSrc m := by
  induction m with
  | nil => cases he
  | cons a t ih =>
    rcases List.mem_cons.mp he with rfl | hm
    · show x ∈ e.2.source_files ++ allSrc t
      exact List.mem_append.mpr (Or.inl hx)
    · show x ∈ a.2.source_files ++ allSrc t
      exact List.mem_append.mpr (Or.inr (ih hm))

theorem mem_allHdr {m : DepMap} {e : Str × DepRec} (he : e ∈ m) {x : Str}
    (hx : x ∈ e.2.header_files) : x ∈ allHdr m := by
  induction m with
  | nil => cases he
  | cons a t ih =>
    rcases List.mem_cons.mp he with rfl | hm
    · show x ∈ e.2.header_files ++ allHdr t
      exact List.mem_append.mpr (Or.inl hx)
    · show x ∈ a.2.header_files ++ allHdr t
      exact List.mem_append.mpr (Or.inr (ih hm))

theorem mapFind_mem {m : DepMap} {k : Str} {r : DepRec} (h : mapFind m k = some r) :
    (k, r) ∈ m := by
  unfold mapFind at h
  cases hf : m.find? (fun e => decide (e.1 = k)) with
  | none => rw [hf] at h; exact Option.noConfusion h
  | some e =>
    rw [hf] at h
    simp at h
    have hmem := List.mem_of_find?_eq_some hf
    have hpe := List.find?_some hf
    obtain ⟨a, b⟩ := e
    simp only [decide_eq_true_eq] at hpe
    cases hpe
    cases h
    exact hmem

theorem mapFind_isSome_of_contains {m : DepMap} {k : Str} (h : mapContains m k = true) :
    ∃ r, mapFind m k = some r := by
  unfold mapContains at h
  rw [List.any_eq_true] at h
  obtain ⟨e, he, hp⟩ := h
  unfold mapFind
  cases hf : m.find? (fun e => decide (e.1 = k)) with
  | none =>
    rw [List.find?_eq_none] at hf
    exact absurd hp (hf e he)
  | some e2 => exact ⟨e2.2, rfl⟩

theorem filter_imp_length {p q : Str → Bool} (himp : ∀ x, q x = true → p x = true) :
    ∀ t : List Str, (t.filter q).length ≤ (t.filter p).length := by
  intro t
  induction t with
  | nil => simp
  | cons a t ih =>
    by_cases hq : q a = true
    · have hp := himp a hq
      simp only [List.filter_cons, hq, hp, if_true, List.length_cons]
      omega
    · have hq2 : q a = false := Bool.eq_false_iff.mpr hq
      simp only [List.filter_cons, hq2]
      by_cases hp : p a = true
      · simp only [hp, if_true, if_false, Bool.false_eq_true, List.length_cons]
        omega
      · have hp2 : p a = false := Bool.eq_false_iff.mpr hp
        simp only [hp2, if_false, Bool.false_eq_true]
        exact ih

theorem remCount_nil (u : List Str) : remCount u [] = u.length := by
  simp [remCount]

theorem remCount_le_length (u visited : List Str) : remCount u visited ≤ u.length := by
  unfold remCount
  exact List.length_filter_le _ _

theorem remCount_mono {u v w : List Str} (hsub : v ⊆ w) :
    remCount u w ≤ remCount u v := by
  unfold remCount
  apply filter_imp_length
  intro x hx
  simp only [decide_eq_true_eq] at hx ⊢
  exact fun hmem => hx (hsub hmem)

theorem remCount_strict {u visited : List Str} {x : Str} (hxu : x ∈ u) (hxv : x ∉ visited) :
    remCount u (visited ++ [x]) < remCount u visited := by
  unfold remCount
  have himp : ∀ y, decide (y ∉ visited ++ [x]) = true → decide (y ∉ visited) = true := by
    intro y hy
    simp only [decide_eq_true_eq] at hy ⊢
    exact fun hmem => hy (List.mem_append.mpr (Or.inl hmem))
  induction u with
  | nil => cases hxu
  | cons a t ih =>
    rcases List.mem_cons.mp hxu with rfl | hm
    · have h1 : decide (x ∉ visited) = true := decide_eq_true hxv
      have h2 : decide (x ∉ visited ++ [x]) = false := decide_eq_false (by simp)
      simp only [List.filter_cons, h1, h2, if_true, if_false, Bool.false_eq_true,
        List.length_cons]
      have := filter_imp_length himp t
      omega
    · by_cases ha2 : a ∈ visited ++ [x]
      · by_cases hav : a ∈ visited
        · have h1 : decide (a ∉ visited) = false := decide_eq_false (not_not_intro hav)
          have h2 : decide (a ∉ visited ++ [x]) = false :=
            decide_eq_false (not_not_intro ha2)
          simp only [List.filter_cons, h1, h2, if_false, Bool.false_eq_true]
          exact ih hm
        · have h1 : decide (a ∉ visited) = true := decide_eq_true hav
          have h2 : decide (a ∉ visited ++ [x]) = false :=
            decide_eq_false (not_not_intro ha2)
          simp only [List.filter_cons, h1, h2, if_true, if_false, Bool.false_eq_true,
            List.length_cons]
          have := filter_imp_length himp t
          omega
      · have hav : a ∉ visited := fun hmem => ha2 (List.mem_append.mpr (Or.inl hmem))
        have h1 : decide (a ∉ visited) = true := decide_eq_true hav
        have h2 : decide (a ∉ visited ++ [x]) = true := decide_eq_true ha2
        simp only [List.filter_cons, h1, h2, if_true, List.length_cons]
        have := ih hm
        omega

theorem header_fold_subset (step : Str → List Str → Option (List Str))
    (hstep : ∀ x v v2, step x v = some v2 → v ⊆ v2) :
    ∀ hs v v2, header_fold step hs v = some v2 → v ⊆ v2 := by
  intro hs
  induction hs with
  | nil =>
    intro v v2 h
    simp only [header_fold] at h
    cases h
    exact fun _ hy => hy
  | cons x xs ih =>
    intro v v2 h
    simp only [header_fold] at h
    by_cases hx : x ∈ v
    · rw [if_pos hx] at h
      exact ih v v2 h
    · rw [if_neg hx] at h
      cases hs2 : step x (v ++ [x]) with
      | none => rw [hs2] at h; exact absurd h (by simp)
      | some v1 =>
        rw [hs2] at h
        have h1 := hstep x (v ++ [x]) v1 hs2
        have h2 := ih v1 v2 h
        intro y hy
        exact h2 (h1 (List.mem_append.mpr (Or.inl hy)))

theorem header_rec_subset (m : DepMap) :
    ∀ fuel f v v2, header_rec m fuel f v = some v2 → v ⊆ v2 := by
  intro fuel
  induction fuel with
  | zero => intro f v v2 h; simp [header_rec] at h
  | succ fuel ih =>
    intro f v v2 h
    simp only [header_rec] at h
    cases hf : mapFind m f with
    | none => rw [hf] at h; exact absurd h (by simp)
    | some r =>
      rw [hf] at h
      exact header_fold_subset _ (fun x v3 v4 hh => ih x v3 v4 hh) _ _ _ h

theorem header_fold_isSome (step : Str → List Str → Option (List Str)) (uh : List Str)
    (fuel : Nat) (hsub : ∀ x v v2, step x v = some v2 → v ⊆ v2)
    (hstep : ∀ x v, x ∈ uh → remCount uh v < fuel → (step x v).isSome) :
    ∀ hs v, (∀ x ∈ hs, x ∈ uh) → remCount uh v ≤ fuel →
      (header_fold step hs v).isSome := by
  intro hs
  induction hs with
  | nil => intro v _ _; simp [header_fold]
  | cons x xs ih =>
    intro v hall hcnt
    simp only [header_fold]
    by_cases hx : x ∈ v
    · rw [if_pos hx]
      exact ih v (fun y hy => hall y (List.mem_cons_of_mem _ hy)) hcnt
    · rw [if_neg hx]
      have hxu : x ∈ uh := hall x (List.mem_cons_self _ _)
      have hlt := remCount_strict hxu hx
      have hsome := hstep x (v ++ [x]) hxu (by omega)
      cases hs2 : step x (v ++ [x]) with
      | none => rw [hs2] at hsome; exact absurd hsome (by simp)
      | some v1 =>
        have hsubv := hsub x (v ++ [x]) v1 hs2
        have hcnt1 : remCount uh v1 ≤ fuel := by
          have := remCount_mono (u := uh) hsubv
          omega
        exact ih v1 (fun y hy => hall y (List.mem_cons_of_mem _ hy)) hcnt1

theorem header_rec_isSome (m : DepMap) (hc : edge_closed m) :
    ∀ fuel f v, mapContains m f = true → remCount ((allHdr m).dedup) v < fuel →
      (header_rec m fuel f v).isSome := by
  intro fuel
  induction fuel with
  | zero => intro f v _ hcnt; omega
  | succ fuel ih =>
    intro f v hf hcnt
    simp only [header_rec]
    obtain ⟨r, hr⟩ := mapFind_isSome_of_contains hf
    rw [hr]
    refine header_fold_isSome _ ((allHdr m).dedup) fuel
      (fun x v3 v4 hh => header_rec_subset m fuel x v3 v4 hh)
      (fun x v3 hxu hlt => ih x v3 ?_ hlt) r.header_files v ?_ (by omega)
    · refine hc x ?_
      unfold allEdges
      exact List.mem_append.mpr (Or.inr (List.mem_dedup.mp hxu))
    · intro x hx
      exact List.mem_dedup.mpr (mem_allHdr (mapFind_mem hr) hx)

theorem fold_fst_subset (step : Str → List Str → List Str → Option (List Str × List Str))
    (hstep : ∀ x d h d2 h2, step x d h = some (d2, h2) → d ⊆ d2 ∧ h ⊆ h2) :
    ∀ xs d h d2 h2, fold_guard_fst step xs d h = some (d2, h2) → d ⊆ d2 ∧ h ⊆ h2 := by
  intro xs
  induction xs with
  | nil =>
    intro d h d2 h2 hh
    simp only [fold_guard_fst] at hh
    cases hh
    exact ⟨fun _ hy => hy, fun _ hy => hy⟩
  | cons x xs ih =>
    intro d h d2 h2 hh
    simp only [fold_guard_fst] at hh
    by_cases hx : x ∈ d
    · rw [if_pos hx] at hh
      exact ih d h d2 h2 hh
    · rw [if_neg hx] at hh
      cases hs2 : step x (d ++ [x]) h with
      | none => rw [hs2] at hh; exact absurd hh (by simp)
      | some p =>
        obtain ⟨dm, hm⟩ := p
        rw [hs2] at hh
        have h1 := hstep x (d ++ [x]) h dm hm hs2
        have h2 := ih dm hm d2 h2 hh
        exact ⟨fun y hy => h2.1 (h1.1 (List.mem_append.mpr (Or.inl hy))),
          fun y hy => h2.2 (h1.2 hy)⟩

theorem fold_snd_subset (step : Str → List Str → List Str → Option (List Str × List Str))
    (hstep : ∀ x d h d2 h2, step x d h = some (d2, h2) → d ⊆ d2 ∧ h ⊆ h2) :
    ∀ xs d h d2 h2, fold_guard_snd step xs d h = some (d2, h2) → d ⊆ d2 ∧ h ⊆ h2 := by
  intro xs
  induction xs with
  | nil =>
    intro d h d2 h2 hh
    simp only [fold_guard_snd] at hh
    cases hh
    exact ⟨fun _ hy => hy, fun _ hy => hy⟩
  | cons x xs ih =>
    intro d h d2 h2 hh
    simp only [fold_guard_snd] at hh
    by_cases hx : x ∈ h
    · rw [if_pos hx] at hh
      exact ih d h d2 h2 hh
    · rw [if_neg hx] at hh
      cases hs2 : step x d (h ++ [x]) with
      | none => rw [hs2] at hh; exact absurd hh (by simp)
      | some p =>
        obtain ⟨dm, hm⟩ := p
        rw [hs2] at hh
        have h1 := hstep x d (h ++ [x]) dm hm hs2
        have h2 := ih dm hm d2 h2 hh
        exact ⟨fun y hy => h2.1 (h1.1 hy),
          fun y hy => h2.2 (h1.2 (List.mem_append.mpr (Or.inl hy)))⟩

theorem fold_fst_isSome (step : Str → List Str → List Str → Option (List Str × List Str))
    (us uh : List Str) (fuel : Nat)
    (hsub : ∀ x d h d2 h2, step x d h = some (d2, h2) → d ⊆ d2 ∧ h ⊆ h2)
    (hstep : ∀ x d h, x ∈ us → remCount us d + remCount uh h < fuel →
      (step x d h).isSome) :
    ∀ xs d h, (∀ x ∈ xs, x ∈ us) → remCount us d + remCount uh h ≤ fuel →
      (fold_guard_fst step xs d h).isSome := by
  intro xs
  induction xs with
  | nil => intro d h _ _; simp [fold_guard_fst]
  | cons x xs ih =>
    intro d h hall hcnt
    simp only [fold_guard_fst]
    by_cases hx : x ∈ d
    · rw [if_pos hx]
      exact ih d h (fun y hy => hall y (List.mem_cons_of_mem _ hy)) hcnt
    · rw [if_neg hx]
      have hxu : x ∈ us := hall x (List.mem_cons_self _ _)
      have hlt := remCount_strict hxu hx
      have hsome := hstep x (d ++ [x]) h hxu (by omega)
      cases hs2 : step x (d ++ [x]) h with
      | none => rw [hs2] at hsome; exact absurd hsome (by simp)
      | some p =>
        obtain ⟨dm, hm⟩ := p
        have hsubv := hsub x (d ++ [x]) h dm hm hs2
        have hd := remCount_mono (u := us) hsubv.1
        have hhm := remCount_mono (u := uh) hsubv.2
        exact ih dm hm (fun y hy => hall y (List.mem_cons_of_mem _ hy)) (by omega)

theorem fold_snd_isSome (step : Str → List Str → List Str → Option (List Str × List Str))
    (us uh : List Str) (fuel : Nat)
    (hsub : ∀ x d h d2 h2, step x d h = some (d2, h2) → d ⊆ d2 ∧ h ⊆ h2)
    (hstep : ∀ x d h, x ∈ uh → remCount us d + remCount uh h < fuel →
      (step x d h).isSome) :
    ∀ xs d h, (∀ x ∈ xs, x ∈ uh) → remCount us d + remCount uh h ≤ fuel →
      (fold_guard_snd step xs d h).isSome := by
  intro xs
  induction xs with
  | nil => intro d h _ _; simp [fold_guard_snd]
  | cons x xs ih =>
    intro d h hall hcnt
    simp only [fold_guard_snd]
    by_cases hx : x ∈ h
    · rw [if_pos hx]
      exact ih d h (fun y hy => hall y (List.mem_cons_of_mem _ hy)) hcnt
    · rw [if_neg hx]
      have hxu : x ∈ uh := hall x (List.mem_cons_self _ _)
      have hlt := remCount_strict hxu hx
      have hsome := hstep x d (h ++ [x]) hxu (by omega)
      cases hs2 : step x d (h ++ [x]) with
      | none => rw [hs2] at hsome; exact absurd hsome (by simp)
      | some p =>
        obtain ⟨dm, hm⟩ := p
        have hsubv := hsub x d (h ++ [x]) dm hm hs2
        have hd := remCount_mono (u := us) hsubv.1
        have hhm := remCount_mono (u := uh) hsubv.2
        exact ih dm hm (fun y hy => hall y (List.mem_cons_of_mem _ hy)) (by omega)

theorem source_rec_subset (m : DepMap) :
    ∀ fuel f d h d2 h2, source_rec m fuel f d h = some (d2, h2) → d ⊆ d2 ∧ h ⊆ h2 := by
  intro fuel
  induction fuel with
  | zero => intro f d h d2 h2 hh; simp [source_rec] at hh
  | succ fuel ih =>
    intro f d h d2 h2 hh
    simp only [source_rec] at hh
    cases hf : mapFind m f with
    | none => rw [hf] at hh; exact absurd hh (by simp)
    | some r =>
      rw [hf] at hh
      dsimp only at hh
      cases hfst : fold_guard_fst (fun f2 d3 h3 => source_rec m fuel f2 d3 h3)
          r.source_files d h with
      | none => rw [hfst] at hh; exact absurd hh (by simp)
      | some p =>
        obtain ⟨dm, hm⟩ := p
        rw [hfst] at hh
        have h1 := fold_fst_subset _ (fun x a b c e hq => ih x a b c e hq) _ _ _ _ _ hfst
        have h2 := fold_snd_subset _ (fun x a b c e hq => ih x a b c e hq) _ _ _ _ _ hh
        exact ⟨fun y hy => h2.1 (h1.1 hy), fun y hy => h2.2 (h1.2 hy)⟩

theorem source_rec_isSome (m : DepMap) (hc : edge_closed m) :
    ∀ fuel f d h, mapContains m f = true →
      remCount ((allSrc m).dedup) d + remCount ((allHdr m).dedup) h < fuel →
      (source_rec m fuel f d h).isSome := by
  intro fuel
  induction fuel with
  | zero => intro f d h _ hcnt; omega
  | succ fuel ih =>
    intro f d h hf hcnt
    simp only [source_rec]
    obtain ⟨r, hr⟩ := mapFind_isSome_of_contains hf
    rw [hr]
    dsimp only
    have hsub : ∀ x a b c e, source_rec m fuel x a b = some (c, e) → a ⊆ c ∧ b ⊆ e :=
      fun x a b c e hq => source_rec_subset m fuel x a b c e hq
    have hsrcU : ∀ x ∈ r.source_files, x ∈ (allSrc m).dedup :=
      fun x hx => List.mem_dedup.mpr (mem_allSrc (mapFind_mem hr) hx)
    have hhdrU : ∀ x ∈ r.header_files, x ∈ (allHdr m).dedup :=
      fun x hx => List.mem_dedup.mpr (mem_allHdr (mapFind_mem hr) hx)
    have hstepS : ∀ x a b, x ∈ (allSrc m).dedup →
        remCount ((allSrc m).dedup) a + remCount ((allHdr m).dedup) b < fuel →
        (source_rec m fuel x a b).isSome := by
      intro x a b hxu hlt
      refine ih x a b (hc x ?_) hlt
      unfold allEdges
      exact List.mem_append.mpr (Or.inl (List.mem_dedup.mp hxu))
    have hstepH : ∀ x a b, x ∈ (allHdr m).dedup →
        remCount ((allSrc m).dedup) a + remCount ((allHdr m).dedup) b < fuel →
        (source_rec m fuel x a b).isSome := by
      intro x a b hxu hlt
      refine ih x a b (hc x ?_) hlt
      unfold allEdges
      exact List.mem_append.mpr (Or.inr (List.mem_dedup.mp hxu))
    have hfirst := fold_fst_isSome _ ((allSrc m).dedup) ((allHdr m).dedup) fuel hsub hstepS
      r.source_files d h hsrcU (by omega)
    cases hfst : fold_guard_fst (fun f2 d3 h3 => source_rec m fuel f2 d3 h3)
        r.source_files d h with
    | none => rw [hfst] at hfirst; exact absurd hfirst (by simp)
    | some p =>
      obtain ⟨dm, hm⟩ := p
      have hmono := fold_fst_subset _ hsub _ _ _ _ _ hfst
      have hd := remCount_mono (u := (allSrc m).dedup) hmono.1
      have hh2 := remCount_mono (u := (allHdr m).dedup) hmono.2
      exact fold_snd_isSome _ ((allSrc m).dedup) ((allHdr m).dedup) fuel hsub hstepH
        r.header_files dm hm hhdrU (by omega)

theorem lib_insert_all_subset (libs : List Str) : ∀ d, d ⊆ lib_insert_all libs d := by
  induction libs with
  | nil => intro d y hy; exact hy
  | cons l ls ih =>
    intro d
    have h1 : d ⊆ (setInsert d l).2 := by
      unfold setInsert
      split
      · exact fun _ hy => hy
      · exact fun y hy => List.mem_append.mpr (Or.inl hy)
    exact fun y hy => ih (setInsert d l).2 (h1 hy)

theorem library_rec_subset (m : DepMap) :
    ∀ fuel f d h d2 h2, library_rec m fuel f d h = some (d2, h2) → d ⊆ d2 ∧ h ⊆ h2 := by
  intro fuel
  induction fuel with
  | zero => intro f d h d2 h2 hh; simp [library_rec] at hh
  | succ fuel ih =>
    intro f d h d2 h2 hh
    simp only [library_rec] at hh
    cases hf : mapFind m f with
    | none => rw [hf] at hh; exact absurd hh (by simp)
    | some r =>
      rw [hf] at hh
      dsimp only at hh
      cases hfst : fold_guard_snd (fun f2 d3 h3 => library_rec m fuel f2 d3 h3)
          r.source_files (lib_insert_all r.libraries d) h with
      | none => rw [hfst] at hh; exact absurd hh (by simp)
      | some p =>
        obtain ⟨dm, hm⟩ := p
        rw [hfst] at hh
        have h1 := fold_snd_subset _ (fun x a b c e hq => ih x a b c e hq) _ _ _ _ _ hfst
        have h2 := fold_snd_subset _ (fun x a b c e hq => ih x a b c e hq) _ _ _ _ _ hh
        refine ⟨fun y hy => h2.1 (h1.1 (lib_insert_all_subset r.libraries d hy)),
          fun y hy => h2.2 (h1.2 hy)⟩

theorem library_rec_isSome (m : DepMap) (hc : edge_closed m) :
    ∀ fuel f d h, mapContains m f = true →
      remCount ((allEdges m).dedup) h < fuel →
      (library_rec m fuel f d h).isSome := by
  intro fuel
  induction fuel with
  | zero => intro f d h _ hcnt; omega
  | succ fuel ih =>
    intro f d h hf hcnt
    simp only [library_rec]
    obtain ⟨r, hr⟩ := mapFind_isSome_of_contains hf
    rw [hr]
    dsimp only
    have hsub : ∀ x a b c e, library_rec m fuel x a b = some (c, e) → a ⊆ c ∧ b ⊆ e :=
      fun x a b c e hq => library_rec_subset m fuel x a b c e hq
    have hstep : ∀ x a b, x ∈ (allEdges m).dedup →
        remCount ([] : List Str) a + remCount ((allEdges m).dedup) b < fuel →
        (library_rec m fuel x a b).isSome := by
      intro x a b hxu hlt
      refine ih x a b (hc x (List.mem_dedup.mp hxu)) ?_
      have h0 : remCount ([] : List Str) a = 0 := rfl
      omega
    have hsrcU : ∀ x ∈ r.source_files, x ∈ (allEdges m).dedup := by
      intro x hx
      refine List.mem_dedup.mpr ?_
      unfold allEdges
      exact List.mem_append.mpr (Or.inl (mem_allSrc (mapFind_mem hr) hx))
    have hhdrU : ∀ x ∈ r.header_files, x ∈ (allEdges m).dedup := by
      intro x hx
      refine List.mem_dedup.mpr ?_
      unfold allEdges
      exact List.mem_append.mpr (Or.inr (mem_allHdr (mapFind_mem hr) hx))
    have h0 : ∀ a : List Str, remCount ([] : List Str) a = 0 := fun _ => rfl
    have hfirst := fold_snd_isSome _ ([] : List Str) ((allEdges m).dedup) fuel hsub hstep
      r.source_files (lib_insert_all r.libraries d) h hsrcU (by rw [h0]; omega)
    cases hfst : fold_guard_snd (fun f2 d3 h3 => library_rec m fuel f2 d3 h3)
        r.source_files (lib_insert_all r.libraries d) h with
    | none => rw [hfst] at hfirst; exact absurd hfirst (by simp)
    | some p =>
      obtain ⟨dm, hm⟩ := p
      have hmono := fold_snd_subset _ hsub _ _ _ _ _ hfst
      have hh2 := remCount_mono (u := (allEdges m).dedup) hmono.2
      exact fold_snd_isSome _ ([] : List Str) ((allEdges m).dedup) fuel hsub hstep
        r.header_files dm hm hhdrU (by rw [h0]; omega)

/-- C8: on a dependency map whose every recorded source-file and
header-file path is itself a key — cyclic edge sets included — the three
closure queries complete: each guarded walk only recurses after
inserting a fresh recorded path into a visited set bounded by the finite
recorded universe, so the recursion never exhausts the stated bound. -/
theorem c8_closure_queries_terminate (m : DepMap) (hc : edge_closed m) (f : Str)
    (hf : mapContains m f = true) :
    (header_dependencies m f).isSome ∧ (source_dependencies m f).isSome ∧
    (library_dependencies m f).isSome := by
  have hfuel : (allSrc m).dedup.length + (allHdr m).dedup.length
      + (allEdges m).dedup.length + 1 = closure_fuel m := rfl
  refine ⟨?_, ?_, ?_⟩
  · unfold header_dependencies
    refine header_rec_isSome m hc (closure_fuel m) f [] hf ?_
    rw [remCount_nil]
    omega
  · unfold source_dependencies
    refine source_rec_isSome m hc (closure_fuel m) f [f] [] hf ?_
    rw [remCount_nil]
    have := remCount_le_length ((allSrc m).dedup) [f]
    omega
  · unfold library_dependencies
    refine library_rec_isSome m hc (closure_fuel m) f [] [] hf ?_
    rw [remCount_nil]
    omega

/-- C8 witness: the cyclic two-header map of scenario S6; the closedness
hypothesis and the key membership are computed, and all three queries
complete. -/
theorem c8_witness :
    (header_dependencies c8_map (lit "app.cc")).isSome ∧
    (source_dependencies c8_map (lit "app.cc")).isSome ∧
    (library_dependencies c8_map (lit "app.cc")).isSome :=
  c8_closure_queries_terminate c8_map (by unfold edge_closed; decide) (lit "app.cc")
    (by decide)

end BuildTool
